import Mathlib

/-!
Shallow embedding of the MT4/MT5 signal-copier bot (src/run.py) and proofs
about its parser, risk calculator, order-placement orchestrator and
conversation handlers.

Modelling conventions:
* Python `str` is modelled as `List Char` (ASCII case mapping; the
  whitespace set is space/tab/CR/LF, matching `Char.isWhitespace`).
* Python `float` is modelled as `ℚ`.  All numeric literals appearing in the
  claims are exactly representable at the 2-decimal/integer granularity the
  code rounds to, so rational arithmetic and IEEE-754 arithmetic agree on
  every value the claims mention.
* Python exceptions are modelled as `Except`: an `IndexError` while reading
  a signal line maps to `PErr.incompleteSignal`, a `ValueError` from
  `float(...)` maps to `PErr.malformedNumber`, and the `return {}` for a
  missing BUY/SELL keyword maps to `PErr.invalidOrderType` (the caller turns
  the empty dict into an exception as well).
* The MetaApi SDK is modelled as a `Gateway` record of per-stage outcomes;
  the orchestrator `ConnectMetaTrader` consumes it sequentially exactly as
  the `await` chain in the source does.
-/

set_option maxRecDepth 40000

/- Concrete evaluation of the embedding reduces rational arithmetic by
definitional unfolding; the four core operations are sealed by default. -/
unseal Rat.add Rat.sub Rat.mul Rat.inv

/-! ## Characters, lines and words (Python str helpers) -/

/-- ASCII lower-to-upper case pairs; `str.upper`/`str.lower` are modelled on
the ASCII range, which covers every character the program manipulates. -/
def caseTable : List (Char × Char) :=
  [('a', 'A'), ('b', 'B'), ('c', 'C'), ('d', 'D'), ('e', 'E'), ('f', 'F'),
   ('g', 'G'), ('h', 'H'), ('i', 'I'), ('j', 'J'), ('k', 'K'), ('l', 'L'),
   ('m', 'M'), ('n', 'N'), ('o', 'O'), ('p', 'P'), ('q', 'Q'), ('r', 'R'),
   ('s', 'S'), ('t', 'T'), ('u', 'U'), ('v', 'V'), ('w', 'W'), ('x', 'X'),
   ('y', 'Y'), ('z', 'Z')]

def upChar (c : Char) : Char :=
  match caseTable.find? (fun p => p.1 == c) with
  | some p => p.2
  | none => c

def downChar (c : Char) : Char :=
  match caseTable.find? (fun p => p.2 == c) with
  | some p => p.1
  | none => c

/-- Python `str.upper()`. -/
def upperL (l : List Char) : List Char := l.map upChar

/-- Python `str.lower()`. -/
def lowerL (l : List Char) : List Char := l.map downChar

/-- Python `str.rstrip()`. -/
def rstripL (l : List Char) : List Char :=
  (l.reverse.dropWhile Char.isWhitespace).reverse

/-- Helper for `splitlinesL`; `acc` holds the current line reversed. -/
def splitAux : List Char → List Char → List (List Char)
  | [], acc => if acc.isEmpty then [] else [acc.reverse]
  | c :: t, acc =>
    if c = '\n' then acc.reverse :: splitAux t [] else splitAux t (c :: acc)

/-- Python `str.splitlines()`: newline is a terminator, a trailing newline
does not produce a final empty line, and the empty string has no lines. -/
def splitlinesL (l : List Char) : List (List Char) := splitAux l []

/-- Helper for `wordsL`; `acc` holds the current word reversed. -/
def wordsAux : List Char → List Char → List (List Char)
  | [], acc => if acc.isEmpty then [] else [acc.reverse]
  | c :: t, acc =>
    if c.isWhitespace then
      if acc.isEmpty then wordsAux t [] else acc.reverse :: wordsAux t []
    else wordsAux t (c :: acc)

/-- Python `str.split()` with no argument: split on whitespace runs,
discarding empty pieces. -/
def wordsL (l : List Char) : List (List Char) := wordsAux l []

/-- Substring test, `p in l` for Python strings: `isPrefList p l` is
`l.startswith(p)`. -/
def isPrefList : List Char → List Char → Bool
  | [], _ => true
  | _ :: _, [] => false
  | c :: p, d :: l => c == d && isPrefList p l

def hasSub (p : List Char) : List Char → Bool
  | [] => p.isEmpty
  | c :: t => isPrefList p (c :: t) || hasSub p t

/-! ## Decimal numerals (Python `float(...)` and float printing) -/

def digVal (c : Char) : ℕ := c.toNat - 48

def digitsToNat (l : List Char) : ℕ := l.foldl (fun a c => a * 10 + digVal c) 0

def digCh (d : ℕ) : Char :=
  match d with
  | 0 => '0' | 1 => '1' | 2 => '2' | 3 => '3' | 4 => '4'
  | 5 => '5' | 6 => '6' | 7 => '7' | 8 => '8' | 9 => '9'
  | _ => '0'

/-- Big-endian decimal digits of `n`, with explicit fuel so that it is
structural (and hence kernel-computable). -/
def natDigitsAux : ℕ → ℕ → List Char
  | 0, _ => []
  | fuel + 1, n =>
    if n < 10 then [digCh n] else natDigitsAux fuel (n / 10) ++ [digCh (n % 10)]

def natDigits (n : ℕ) : List Char := natDigitsAux (n + 1) n

/-- `k` fractional digits for the value `fpart < 10^k`, left-padded with
zeros (one digit `0` when `k = 0`, as Python prints `5.0`). -/
def fracDigits (k fpart : ℕ) : List Char :=
  List.replicate (k - (natDigits fpart).length) '0' ++ natDigits fpart

/-- Strip one optional sign, Python-float style (`+` or `-`). -/
def splitSign (l : List Char) : Bool × List Char :=
  match l with
  | '+' :: t => (false, t)
  | '-' :: t => (true, t)
  | t => (false, t)

/-- The rational `±(mant · 10^pe) / 10^(f+ne)`: mantissa digits worth `mant`
with `f` of them after the decimal point, times an exponent of `pe - ne`. -/
def ratOfParts (neg : Bool) (mant f pe ne : ℕ) : ℚ :=
  (if neg then (-1 : ℚ) else 1) * (mant : ℚ) * 10 ^ pe / 10 ^ (f + ne)

def parseExpPart (neg : Bool) (mant f : ℕ) (t : List Char) : Option ℚ :=
  let s := splitSign t
  let ed := s.2.takeWhile Char.isDigit
  if ed.isEmpty then none
  else if (s.2.dropWhile Char.isDigit).isEmpty then
    if s.1 then some (ratOfParts neg mant f 0 (digitsToNat ed))
    else some (ratOfParts neg mant f (digitsToNat ed) 0)
  else none

/-- Python `float(token)` on a whitespace-free token, for the finite decimal
grammar `[+-]? digits [. digits]? ([eE][+-]?digits)?` (with at least one
mantissa digit).  The special words `inf`/`nan` and digit underscores are not
modelled; no token the program meets uses them. -/
def parseFloatL (l : List Char) : Option ℚ :=
  let s := splitSign l
  let ip := s.2.takeWhile Char.isDigit
  let r1 := s.2.dropWhile Char.isDigit
  let fr :=
    match r1 with
    | '.' :: t => (t.takeWhile Char.isDigit, t.dropWhile Char.isDigit)
    | _ => (([] : List Char), r1)
  if ip.isEmpty && fr.1.isEmpty then none
  else
    match fr.2 with
    | [] => some (ratOfParts s.1 (digitsToNat (ip ++ fr.1)) fr.1.length 0 0)
    | 'e' :: t => parseExpPart s.1 (digitsToNat (ip ++ fr.1)) fr.1.length t
    | 'E' :: t => parseExpPart s.1 (digitsToNat (ip ++ fr.1)) fr.1.length t
    | _ => none

/-- Structural (fuelled) base-2 logarithm: with `n ≤ fuel`, `log2F fuel n`
is at least `a` whenever `2^a ≤ n`. -/
def log2F : ℕ → ℕ → ℕ
  | 0, _ => 0
  | fuel + 1, n => if n ≤ 1 then 0 else log2F fuel (n / 2) + 1

/-- A decimal-digit count sufficient for `den`: whenever `den ∣ 10^j` for
some `j` (true of every denominator `parseFloatL` produces), also
`den ∣ 10^(tenExp den)`, because then `den = 2^a · 5^b` with
`a, b ≤ log2F den den`. -/
def tenExp (den : ℕ) : ℕ := log2F den den + 1

/-- Print a rational with a finite decimal expansion the way Python prints
the equal float: optional sign, integer digits, a dot, fractional digits. -/
def printDecL (q : ℚ) : List Char :=
  let k := tenExp q.den
  let n : ℤ := q.num * 10 ^ k / (q.den : ℤ)
  (if n < 0 then ['-'] else []) ++
    natDigits (n.natAbs / 10 ^ k) ++ '.' :: fracDigits k (n.natAbs % 10 ^ k)

/-! ## Data model -/

inductive OrderSide where
  | Buy
  | Sell
deriving DecidableEq

/-- The value stored under `trade['Entry']`: the Python dict holds a string
after parsing and a float once the orchestrator resolves a market entry. -/
inductive EntryVal where
  | str : List Char → EntryVal
  | num : ℚ → EntryVal
deriving DecidableEq

structure Trade where
  OrderType : OrderSide
  Symbol : List Char
  Entry : EntryVal
  StopLoss : ℚ
  TP : List ℚ
  PositionSize : ℚ
  Multiplier : ℚ
deriving DecidableEq

inductive PErr where
  | invalidOrderType
  | incompleteSignal
  | malformedNumber
deriving DecidableEq

/-! ## ParseSignal (src/run.py lines 164-221) -/

def sellChars : List Char := ['s', 'e', 'l', 'l']

def buyChars : List Char := ['b', 'u', 'y']

def nowChars : List Char := ['N', 'O', 'W']

/-- `signal[i]`, raising `IndexError` past the end. -/
def getLineE (ls : List (List Char)) (i : ℕ) : Except PErr (List Char) :=
  match ls[i]? with
  | some l => .ok l
  | none => .error .incompleteSignal

/-- `(line.split())[-1]`, raising `IndexError` on a whitespace-only line. -/
def lastWordE (l : List Char) : Except PErr (List Char) :=
  match (wordsL l).getLast? with
  | some w => .ok w
  | none => .error .incompleteSignal

/-- `float(tok)`, raising `ValueError` on a malformed numeral. -/
def floatE (w : List Char) : Except PErr ℚ :=
  match parseFloatL w with
  | some q => .ok q
  | none => .error .malformedNumber

/-- `float((signal[i].split())[-1])`. -/
def floatAt (ls : List (List Char)) (i : ℕ) : Except PErr ℚ :=
  match getLineE ls i with
  | .error e => .error e
  | .ok l =>
    match lastWordE l with
    | .error e => .error e
    | .ok w => floatE w

/-- The optional third/fourth take-profit line: parsed only when the signal
has more than `i` lines. -/
def tpExtra (ls : List (List Char)) (i : ℕ) : Except PErr (Option ℚ) :=
  if i < ls.length then
    match floatAt ls i with
    | .error e => .error e
    | .ok q => .ok (some q)
  else .ok none

def optList : Option ℚ → List ℚ
  | some q => [q]
  | none => []

/-- `signal.splitlines()` followed by per-line `rstrip`. -/
def linesOf (s : String) : List (List Char) := (splitlinesL s.data).map rstripL

/-- Everything `ParseSignal` does after the order-type keyword is found.
Evaluation order follows the source: symbol (line 0), entry (line 1), stop
loss (line 4), first take profit (line 5), optional lines 6 and 7, then
position size (line 2) and multiplier (line 3).  The entry token is stored
as a raw string: the float-conversion branch at src/run.py line 198 is
unreachable because the guard on line 195 always holds. -/
def parseRest (ls : List (List Char)) (l0 : List Char) (side : OrderSide) :
    Except PErr Trade :=
  match lastWordE l0 with
  | .error e => .error e
  | .ok w0 =>
  match getLineE ls 1 with
  | .error e => .error e
  | .ok l1 =>
  match lastWordE l1 with
  | .error e => .error e
  | .ok w1 =>
  match floatAt ls 4 with
  | .error e => .error e
  | .ok sl =>
  match floatAt ls 5 with
  | .error e => .error e
  | .ok tp1 =>
  match tpExtra ls 6 with
  | .error e => .error e
  | .ok tp2 =>
  match tpExtra ls 7 with
  | .error e => .error e
  | .ok tp3 =>
  match floatAt ls 2 with
  | .error e => .error e
  | .ok ps =>
  match floatAt ls 3 with
  | .error e => .error e
  | .ok mult =>
    .ok { OrderType := side, Symbol := upperL w0, Entry := .str w1,
          StopLoss := sl, TP := tp1 :: (optList tp2 ++ optList tp3),
          PositionSize := ps, Multiplier := mult }

/-- `ParseSignal` (src/run.py lines 164-221).  The `"sell"` substring test
comes first, then `"buy"`; neither present yields the empty dict, modelled
as `PErr.invalidOrderType`. -/
def ParseSignal (s : String) : Except PErr Trade :=
  match getLineE (linesOf s) 0 with
  | .error e => .error e
  | .ok l0 =>
    if hasSub sellChars (lowerL l0) then parseRest (linesOf s) l0 OrderSide.Sell
    else if hasSub buyChars (lowerL l0) then parseRest (linesOf s) l0 OrderSide.Buy
    else .error .invalidOrderType

/-! ## Risk calculator (src/run.py lines 224-299) -/

/-- `math.floor` on rationals via floor division of numerator by
denominator. -/
def ratFloor (q : ℚ) : ℤ := Int.fdiv q.num q.den

/-- Python 3 `round(x)`: round half to even. -/
def pyRound (q : ℚ) : ℤ :=
  let f := ratFloor q
  let r := q - (f : ℚ)
  if r < 1 / 2 then f
  else if 1 / 2 < r then f + 1
  else if f % 2 = 0 then f else f + 1

/-- Python 3 `round(x, 2)`: round half to even at two decimal places. -/
def pyRound2 (q : ℚ) : ℚ := (pyRound (q * 100) : ℚ) / 100

inductive CalcErr where
  | typeError
  | zeroDivision
deriving DecidableEq

structure RiskReport where
  stopLossPips : ℤ
  takeProfitPips : List ℤ
  potentialLoss : ℚ
  risk : ℤ
  profits : List ℚ
  totalProfit : ℚ
deriving DecidableEq

/-- `CreateTable` (src/run.py lines 250-299), restricted to the numbers it
computes.  `potentialLoss` is evaluated first; the `risk` line then raises
`ZeroDivisionError` exactly when the balance is `0` (Python float division
only raises on a zero divisor; a negative balance divides fine).  The
per-target profit divides by `len(takeProfitPips)` inside the loop body, so
an empty list never evaluates that division. -/
def CreateTableCalc (trade : Trade) (balance : ℚ) (stopLossPips : ℤ)
    (takeProfitPips : List ℤ) : Except CalcErr RiskReport :=
  let potentialLoss :=
    pyRound2 ((trade.PositionSize * 10) * (stopLossPips : ℚ) * (takeProfitPips.length : ℚ))
  if balance = 0 then .error .zeroDivision
  else
    let risk := pyRound ((potentialLoss * 100) / balance)
    let profits := takeProfitPips.map
      (fun tp => pyRound2 ((trade.PositionSize * 10 * (1 / (takeProfitPips.length : ℚ))) * (tp : ℚ)))
    .ok { stopLossPips := stopLossPips, takeProfitPips := takeProfitPips,
          potentialLoss := potentialLoss, risk := risk,
          profits := profits, totalProfit := profits.sum }

/-- `GetTradeInformation` (src/run.py lines 224-247).  `trade['StopLoss'] -
trade['Entry']` raises `TypeError` when the entry is still a string, and the
division by the multiplier raises `ZeroDivisionError` when it is `0`. -/
def GetTradeInformationCalc (trade : Trade) (balance : ℚ) :
    Except CalcErr RiskReport :=
  match trade.Entry with
  | .str _ => .error .typeError
  | .num entry =>
    if trade.Multiplier = 0 then .error .zeroDivision
    else
      let stopLossPips := |pyRound ((trade.StopLoss - entry) / trade.Multiplier)|
      let takeProfitPips := trade.TP.map
        (fun tp => |pyRound ((tp - entry) / trade.Multiplier)|)
      CreateTableCalc trade balance stopLossPips takeProfitPips

/-! ## Orchestrator (src/run.py lines 302-389) -/

inductive OrderCall where
  | buy : List Char → ℚ → ℚ → ℚ → OrderCall
  | sell : List Char → ℚ → ℚ → ℚ → OrderCall
deriving DecidableEq

/-- The MetaApi collaborator, as the outcome of each awaited stage.
`orderResults i` is the outcome of the `i`-th order submission of the run. -/
structure Gateway where
  state : String
  deployResult : Except String Unit
  connectedResult : Except String Unit
  rpcConnectResult : Except String Unit
  syncResult : Except String Unit
  accountInfoResult : Except String ℚ
  priceResult : Except String (ℚ × ℚ)
  orderResults : ℕ → Except String Unit

/-- Observable outcome of one `ConnectMetaTrader` run. -/
structure OrchResult where
  ordersSubmitted : List OrderCall
  connectionErrorReported : Option String
  orderErrorReported : Option String
  tradeSuccessReported : Bool
  riskResult : Option (Except CalcErr RiskReport)

/-- `account.deploy()` is awaited only when the account state is neither
`DEPLOYING` nor `DEPLOYED` (src/run.py lines 318-324). -/
def deployStep (gw : Gateway) : Except String Unit :=
  if gw.state = ("DEPLOYING" : String) ∨ gw.state = ("DEPLOYED" : String) then .ok ()
  else gw.deployResult

/-- Entry resolution (src/run.py lines 343-352): only when the stored entry
is the string `NOW`, fetch the symbol price and overwrite the entry with the
bid for a buy and the ask for a sell. -/
def resolveEntry (gw : Gateway) (t : Trade) : Except String Trade :=
  if t.Entry = EntryVal.str nowChars then
    match gw.priceResult with
    | .error e => .error e
    | .ok p =>
      match t.OrderType with
      | .Buy => .ok { t with Entry := .num p.1 }
      | .Sell => .ok { t with Entry := .num p.2 }
  else .ok t

def mkOrder (t : Trade) : ℚ → OrderCall :=
  match t.OrderType with
  | .Buy => fun tp => .buy t.Symbol t.PositionSize t.StopLoss tp
  | .Sell => fun tp => .sell t.Symbol t.PositionSize t.StopLoss tp

/-- The submission loop inside the inner `try` (src/run.py lines 363-372):
one market order per take-profit target, sequentially; the first raising
submission ends the loop because the `except` is outside the `for`. -/
def submitLegs (gw : Gateway) (mk : ℚ → OrderCall) :
    List ℚ → ℕ → List OrderCall × Option String
  | [], _ => ([], none)
  | tp :: rest, idx =>
    match gw.orderResults idx with
    | .ok _ =>
      let r := submitLegs gw mk rest (idx + 1)
      (mk tp :: r.1, r.2)
    | .error e => ([mk tp], some e)

/-- The whole `if(enterTrade == True)` block (src/run.py lines 358-383):
run the loop; on an exception report it (inner `except`); otherwise send the
success reply — after which the `result['stringCode']` log line raises
`NameError` in the (unreachable after a successful parse) case of an empty
take-profit list, which the same inner `except` also reports. -/
def enterTradeStep (gw : Gateway) (t : Trade) :
    List OrderCall × Option String × Bool :=
  let r := submitLegs gw (mkOrder t) t.TP 0
  match r.2 with
  | some e => (r.1, some e, false)
  | none =>
    if t.TP.isEmpty then (r.1, some ("NameError"), true) else (r.1, none, true)

def connFail (e : String) : OrchResult :=
  { ordersSubmitted := [], connectionErrorReported := some e,
    orderErrorReported := none, tradeSuccessReported := false,
    riskResult := none }

/-- `ConnectMetaTrader` (src/run.py lines 302-389): the sequential await
chain; any raise before the `enterTrade` block lands in the outer `except`
(connection error reported, no order submitted).  A raise inside
`GetTradeInformation` also propagates to the outer `except`.  Returns the
observable outcome together with the (possibly entry-resolved, in-place
mutated) trade dict. -/
def ConnectMetaTrader (gw : Gateway) (trade : Trade) (enterTrade : Bool) :
    OrchResult × Trade :=
  match deployStep gw with
  | .error e => (connFail e, trade)
  | .ok _ =>
  match gw.connectedResult with
  | .error e => (connFail e, trade)
  | .ok _ =>
  match gw.rpcConnectResult with
  | .error e => (connFail e, trade)
  | .ok _ =>
  match gw.syncResult with
  | .error e => (connFail e, trade)
  | .ok _ =>
  match gw.accountInfoResult with
  | .error e => (connFail e, trade)
  | .ok balance =>
  match resolveEntry gw trade with
  | .error e => (connFail e, trade)
  | .ok t2 =>
  match GetTradeInformationCalc t2 balance with
  | .error e =>
    ({ ordersSubmitted := [], connectionErrorReported := some (calcErrMsg e),
       orderErrorReported := none, tradeSuccessReported := false,
       riskResult := some (.error e) }, t2)
  | .ok rr =>
    if enterTrade then
      let r := enterTradeStep gw t2
      ({ ordersSubmitted := r.1, connectionErrorReported := none,
         orderErrorReported := r.2.1, tradeSuccessReported := r.2.2,
         riskResult := some (.ok rr) }, t2)
    else
      ({ ordersSubmitted := [], connectionErrorReported := none,
         orderErrorReported := none, tradeSuccessReported := false,
         riskResult := some (.ok rr) }, t2)
where
  calcErrMsg : CalcErr → String
    | .typeError => "TypeError"
    | .zeroDivision => "ZeroDivisionError"

/-! ## Conversation handlers (src/run.py lines 393-470 and 596-633) -/

inductive ConvState where
  | TRADE
  | CALCULATE
  | DECISION
  | ENDCONV
deriving DecidableEq

structure HandlerOutcome where
  storedTrade : Option Trade
  nextState : ConvState
  orch : Option OrchResult
  parseInvoked : Bool

/-- `PlaceTrade` (src/run.py lines 393-430): with a stored trade (the
`/yes` path out of `DECISION`) the text is not parsed and the orchestrator
runs on the stored trade with `enterTrade = True`; afterwards the stored
trade is cleared and the conversation ends.  With no stored trade the text
is parsed first; a parse failure keeps the `TRADE` state and stores
nothing. -/
def PlaceTrade (stored : Option Trade) (text : String) (gw : Gateway) :
    HandlerOutcome :=
  match stored with
  | some t =>
    { storedTrade := none, nextState := .ENDCONV,
      orch := some (ConnectMetaTrader gw t true).1, parseInvoked := false }
  | none =>
    match ParseSignal text with
    | .error _ =>
      { storedTrade := none, nextState := .TRADE, orch := none,
        parseInvoked := true }
    | .ok t =>
      { storedTrade := none, nextState := .ENDCONV,
        orch := some (ConnectMetaTrader gw t true).1, parseInvoked := true }

/-- `CalculateTrade` (src/run.py lines 433-470): like `PlaceTrade` but with
`enterTrade = False`; on success the (entry-resolved) trade stays stored and
the conversation moves to `DECISION`, whose `/yes` command is wired to
`PlaceTrade` and `/no` to `cancel` (src/run.py line 615). -/
def CalculateTrade (stored : Option Trade) (text : String) (gw : Gateway) :
    HandlerOutcome :=
  match stored with
  | some t =>
    let r := ConnectMetaTrader gw t false
    { storedTrade := some r.2, nextState := .DECISION, orch := some r.1,
      parseInvoked := false }
  | none =>
    match ParseSignal text with
    | .error _ =>
      { storedTrade := none, nextState := .CALCULATE, orch := none,
        parseInvoked := true }
    | .ok t =>
      let r := ConnectMetaTrader gw t false
      { storedTrade := some r.2, nextState := .DECISION, orch := some r.1,
        parseInvoked := true }

/-! ## Canonical serialization (src/run.py lines 121-126) -/

def entryChars : EntryVal → List Char
  | .str w => w
  | .num q => printDecL q

def sideChars : OrderSide → List Char
  | .Buy => ['B', 'u', 'y']
  | .Sell => ['S', 'e', 'l', 'l']

/-- The line-positional layout produced by the channel adapter
(`message_handler`, src/run.py lines 121-126), with the record's own entry
token in place of the adapter's fixed `NOW`. -/
def tradeLines (t : Trade) : List (List Char) :=
  [sideChars t.OrderType ++ ' ' :: (t.Symbol ++ [' ']),
   ['E', 'n', 't', 'r', 'y', ' '] ++ entryChars t.Entry,
   ['L', 'O', 'T', 'S', ' '] ++ printDecL t.PositionSize,
   ['M', 'u', 'l', 't', 'i', 'p', 'l', 'i', 'e', 'r', ' '] ++ printDecL t.Multiplier,
   ['S', 'L', ' '] ++ printDecL t.StopLoss] ++
  t.TP.map (fun tp => ['T', 'P', ' '] ++ printDecL tp)

def joinLines : List (List Char) → List Char
  | [] => []
  | [l] => l
  | l :: l2 :: ls => l ++ '\n' :: joinLines (l2 :: ls)

def serializeTrade (t : Trade) : String := ⟨joinLines (tradeLines t)⟩

/-! ## Concrete instances used by the claims -/

def eurusdChars : List Char := ['E', 'U', 'R', 'U', 'S', 'D']

/-- A collaborator for which every stage succeeds: deployed account,
balance 10000, both quoted prices 1.10500, every order accepted. -/
def gwOk : Gateway :=
  { state := ("DEPLOYED" : String), deployResult := .ok (),
    connectedResult := .ok (), rpcConnectResult := .ok (),
    syncResult := .ok (), accountInfoResult := .ok 10000,
    priceResult := .ok (1105/1000, 1105/1000),
    orderResults := fun _ => .ok () }

/-- Like `gwOk` but every order submission raises. -/
def gwOrderFail : Gateway := { gwOk with orderResults := fun _ => .error ("boom") }

/-- The worked example of the spec: `BUY EURUSD`, market entry. -/
def sigC8 : String :=
  "BUY EURUSD\nEntry NOW\nLOTS 0.01\nMultiplier 0.0001\nSL 1.10000\nTP 1.11000"

def tradeC8 : Trade :=
  { OrderType := .Buy, Symbol := eurusdChars, Entry := .str nowChars,
    StopLoss := 11/10, TP := [111/100], PositionSize := 1/100,
    Multiplier := 1/10000 }

/-- `tradeC8` with its market entry already resolved to 1.10500, two
take-profit targets instead of one. -/
def tradeBuy2TP : Trade :=
  { OrderType := .Buy, Symbol := eurusdChars, Entry := .num (1105/1000),
    StopLoss := 11/10, TP := [111/100, 112/100], PositionSize := 1/100,
    Multiplier := 1/10000 }

/-! ## C8 -/

/-- C8: parsing the example signal and running the orchestrator against a
balance of 10000 with the market entry resolved to 1.10500 yields
StopLossPips = 50, TakeProfitPips = [50], PotentialLoss = 5.00,
RiskPercentOfBalance = 0 and TotalPotentialProfit = 5.00. -/
theorem claim_C8 :
    ParseSignal sigC8 = .ok tradeC8 ∧
    (ConnectMetaTrader gwOk tradeC8 false).1.riskResult =
      some (.ok { stopLossPips := 50, takeProfitPips := [50],
                  potentialLoss := 5, risk := 0, profits := [5],
                  totalProfit := 5 }) :=
  ⟨rfl, rfl⟩

/-! ## C10 -/

def sigC10 : String :=
  "BUY EURUSD\nEntry NOW\nLOTS 0.01\nMultiplier 0\nSL 1.1\nTP 1.2"

def tradeC10 : Trade :=
  { OrderType := .Buy, Symbol := eurusdChars, Entry := .str nowChars,
    StopLoss := 11/10, TP := [6/5], PositionSize := 1/100, Multiplier := 0 }

/-- C10: the parser accepts a `0` pip-multiplier token, and the pip-distance
division of the calculator then hits its division-by-zero branch from this
successfully parsed record (the orchestrator run aborts there, before any
order submission). -/
theorem claim_C10 :
    ParseSignal sigC10 = .ok tradeC10 ∧ tradeC10.Multiplier = 0 ∧
    (ConnectMetaTrader gwOk tradeC10 true).1.riskResult =
      some (.error CalcErr.zeroDivision) ∧
    (ConnectMetaTrader gwOk tradeC10 true).1.ordersSubmitted = [] :=
  ⟨rfl, rfl, rfl, rfl⟩

/-! ## C2 -/

def sigC2a : String :=
  "BUY EURUSD\nEntry 1.23\nLOTS 0.01\nMultiplier 0.01\nSL 1.1\nTP 1.2"

def tradeC2a : Trade :=
  { OrderType := .Buy, Symbol := eurusdChars, Entry := .str ['1', '.', '2', '3'],
    StopLoss := 11/10, TP := [6/5], PositionSize := 1/100, Multiplier := 1/100 }

def sigC2b : String :=
  "BUY EURUSD\nEntry abc\nLOTS 0.01\nMultiplier 0.01\nSL 1.1\nTP 1.2"

def tradeC2b : Trade :=
  { OrderType := .Buy, Symbol := eurusdChars, Entry := .str ['a', 'b', 'c'],
    StopLoss := 11/10, TP := [6/5], PositionSize := 1/100, Multiplier := 1/100 }

/-- C2 evidence: a non-`NOW` entry token is stored as the raw string, never
converted to a number — even a token that is no numeral at all parses
successfully instead of failing with `MalformedNumber` — and such a record
then crashes the risk calculation with a `TypeError` downstream, so the
conversion the spec describes is clearly what the dead branch at src/run.py
line 198 was meant to do. -/
theorem claim_C2_evidence :
    ParseSignal sigC2a = .ok tradeC2a ∧
    tradeC2a.Entry = EntryVal.str ['1', '.', '2', '3'] ∧
    ParseSignal sigC2b = .ok tradeC2b ∧
    tradeC2b.Entry = EntryVal.str ['a', 'b', 'c'] ∧
    parseFloatL ['a', 'b', 'c'] = none ∧
    (ConnectMetaTrader gwOk tradeC2a true).1.riskResult =
      some (.error CalcErr.typeError) :=
  ⟨rfl, rfl, rfl, rfl, rfl, rfl⟩

/-! ## C3 -/

/-- `tradeC8` with the market entry already resolved to 1.10500. -/
def tradeC8res : Trade := { tradeC8 with Entry := .num (1105/1000) }

/-- C3 counterexample: with a strictly negative account balance the risk
evaluation does not fail — it produces the numeric risk
`round(5·100 / (-10000)) = 0` — so "fails whenever the balance is zero or
negative" is false; only a
balance of exactly zero raises. -/
theorem claim_C3_counterexample :
    (-10000 : ℚ) < 0 ∧
    GetTradeInformationCalc tradeC8res (-10000) =
      .ok { stopLossPips := 50, takeProfitPips := [50], potentialLoss := 5,
            risk := 0, profits := [5], totalProfit := 5 } :=
  ⟨by norm_num, rfl⟩

/-- C3 amended: the risk evaluation computes
`risk = round(potentialLoss × 100 / balance)` and fails with a
division-by-zero error exactly when the balance is zero; any non-zero
(including negative) balance produces a numeric risk value. -/
theorem claim_C3_amended (t : Trade) (balance : ℚ) (sl : ℤ) (tps : List ℤ) :
    (balance = 0 → CreateTableCalc t balance sl tps = .error CalcErr.zeroDivision) ∧
    (balance ≠ 0 → CreateTableCalc t balance sl tps =
      .ok { stopLossPips := sl, takeProfitPips := tps,
            potentialLoss := pyRound2 ((t.PositionSize * 10) * (sl : ℚ) * (tps.length : ℚ)),
            risk := pyRound ((pyRound2 ((t.PositionSize * 10) * (sl : ℚ) * (tps.length : ℚ)) * 100) / balance),
            profits := tps.map (fun tp =>
              pyRound2 ((t.PositionSize * 10 * (1 / (tps.length : ℚ))) * (tp : ℚ))),
            totalProfit := (tps.map (fun tp =>
              pyRound2 ((t.PositionSize * 10 * (1 / (tps.length : ℚ))) * (tp : ℚ)))).sum }) := by
  constructor
  · intro h
    simp [CreateTableCalc, h]
  · intro h
    simp [CreateTableCalc, h]

/-- C3 witness: the amended statement at the example trade, balance 10000. -/
theorem claim_C3_witness :
    CreateTableCalc tradeC8res 10000 50 [50] =
      .ok { stopLossPips := 50, takeProfitPips := [50],
            potentialLoss := pyRound2 ((tradeC8res.PositionSize * 10) * ((50 : ℤ) : ℚ) * ((List.length [(50 : ℤ)] : ℕ) : ℚ)),
            risk := pyRound ((pyRound2 ((tradeC8res.PositionSize * 10) * ((50 : ℤ) : ℚ) * ((List.length [(50 : ℤ)] : ℕ) : ℚ)) * 100) / 10000),
            profits := [(50 : ℤ)].map (fun tp =>
              pyRound2 ((tradeC8res.PositionSize * 10 * (1 / ((List.length [(50 : ℤ)] : ℕ) : ℚ))) * (tp : ℚ))),
            totalProfit := ([(50 : ℤ)].map (fun tp =>
              pyRound2 ((tradeC8res.PositionSize * 10 * (1 / ((List.length [(50 : ℤ)] : ℕ) : ℚ))) * (tp : ℚ)))).sum } :=
  (claim_C3_amended tradeC8res 10000 50 [50]).2 (by norm_num)

/-! ## C1 -/

/-- When every submission up from `idx` succeeds, the loop submits one order
per target, in order. -/
theorem submitLegs_ok (gw : Gateway) (mk : ℚ → OrderCall) :
    ∀ (tps : List ℚ) (idx : ℕ),
      (∀ i, i < tps.length → gw.orderResults (idx + i) = .ok ()) →
      submitLegs gw mk tps idx = (tps.map mk, none) := by
  intro tps
  induction tps with
  | nil => intro idx _; rfl
  | cons tp rest ih =>
    intro idx h
    have h0 : gw.orderResults idx = .ok () := by
      have := h 0 (Nat.succ_pos _)
      simpa using this
    have hr := ih (idx + 1) (fun i hi => by
      have := h (i + 1) (by simpa using Nat.succ_lt_succ hi)
      rwa [show idx + (i + 1) = idx + 1 + i by omega] at this)
    simp [submitLegs, h0, hr]

/-- When the submission for the `k`-th target raises and all earlier ones
succeed, the loop stops with the first `k+1` orders submitted and the raised
error caught. -/
theorem submitLegs_fail (gw : Gateway) (mk : ℚ → OrderCall) :
    ∀ (tps : List ℚ) (k idx : ℕ) (e : String), k < tps.length →
      gw.orderResults (idx + k) = .error e →
      (∀ i, i < k → gw.orderResults (idx + i) = .ok ()) →
      submitLegs gw mk tps idx = ((tps.take (k + 1)).map mk, some e) := by
  intro tps
  induction tps with
  | nil => intro k idx e hk; exact absurd hk (by simp)
  | cons tp rest ih =>
    intro k idx e hk hf hok
    cases k with
    | zero =>
      simp only [Nat.add_zero] at hf
      simp [submitLegs, hf]
    | succ k' =>
      have h0 : gw.orderResults idx = .ok () := by
        have := hok 0 (Nat.succ_pos _)
        simpa using this
      have hr := ih k' (idx + 1) e (by simpa using Nat.lt_of_succ_lt_succ hk)
        (by rwa [show idx + 1 + k' = idx + (k' + 1) by omega])
        (fun i hi => by
          have := hok (i + 1) (Nat.succ_lt_succ hi)
          rwa [show idx + (i + 1) = idx + 1 + i by omega] at this)
      simp [submitLegs, h0, hr]

/-- With all stages up to and including the risk table succeeding, the
orchestrator runs the `enterTrade` block on the resolved trade. -/
theorem CMT_stages_ok (gw : Gateway) (t t2 : Trade) (balance : ℚ)
    (rr : RiskReport)
    (hd : deployStep gw = .ok ()) (hc : gw.connectedResult = .ok ())
    (hr : gw.rpcConnectResult = .ok ()) (hs : gw.syncResult = .ok ())
    (hb : gw.accountInfoResult = .ok balance)
    (he : resolveEntry gw t = .ok t2)
    (hg : GetTradeInformationCalc t2 balance = .ok rr) :
    ConnectMetaTrader gw t true =
      ({ ordersSubmitted := (enterTradeStep gw t2).1,
         connectionErrorReported := none,
         orderErrorReported := (enterTradeStep gw t2).2.1,
         tradeSuccessReported := (enterTradeStep gw t2).2.2,
         riskResult := some (.ok rr) }, t2) := by
  simp [ConnectMetaTrader, hd, hc, hr, hs, hb, he, hg]

/-- C1 counterexample: two take-profit targets, the first submission raises;
the failure is caught and reported, yet only one submission is attempted —
the remaining target's order is never submitted. -/
theorem claim_C1_counterexample :
    tradeBuy2TP.TP.length = 2 ∧
    (ConnectMetaTrader gwOrderFail tradeBuy2TP true).1.orderErrorReported = some ("boom") ∧
    (ConnectMetaTrader gwOrderFail tradeBuy2TP true).1.ordersSubmitted.length = 1 :=
  ⟨rfl, rfl, rfl⟩

/-- C1 amended: in the order-placement stage, a submission failure on the
`k`-th take-profit target is caught and reported per leg (the run is not
aborted as a connection failure, and legs already submitted are not rolled
back), but it ends the submission loop: the failing target's order is the
last one attempted and no remaining target's order is submitted. -/
theorem claim_C1_amended (gw : Gateway) (t t2 : Trade) (balance : ℚ)
    (rr : RiskReport) (k : ℕ) (e : String)
    (hd : deployStep gw = .ok ()) (hc : gw.connectedResult = .ok ())
    (hr : gw.rpcConnectResult = .ok ()) (hs : gw.syncResult = .ok ())
    (hb : gw.accountInfoResult = .ok balance)
    (he : resolveEntry gw t = .ok t2)
    (hg : GetTradeInformationCalc t2 balance = .ok rr)
    (hk : k < t2.TP.length) (hf : gw.orderResults k = .error e)
    (hok : ∀ i, i < k → gw.orderResults i = .ok ()) :
    (ConnectMetaTrader gw t true).1.ordersSubmitted =
      (t2.TP.take (k + 1)).map (mkOrder t2) ∧
    (ConnectMetaTrader gw t true).1.orderErrorReported = some e ∧
    (ConnectMetaTrader gw t true).1.connectionErrorReported = none := by
  rw [CMT_stages_ok gw t t2 balance rr hd hc hr hs hb he hg]
  have hsub := submitLegs_fail gw (mkOrder t2) t2.TP k 0 e hk
    (by simpa using hf) (fun i hi => by simpa using hok i hi)
  simp [enterTradeStep, hsub]

/-- The risk report of `tradeBuy2TP` against balance 10000. -/
def rrBuy2TP : RiskReport :=
  { stopLossPips := 50, takeProfitPips := [50, 150], potentialLoss := 10,
    risk := 0, profits := [5/2, 15/2], totalProfit := 10 }

/-- C1 witness: the amended statement at the failing-gateway run of
`tradeBuy2TP`. -/
theorem claim_C1_witness :
    (ConnectMetaTrader gwOrderFail tradeBuy2TP true).1.ordersSubmitted =
      (tradeBuy2TP.TP.take 1).map (mkOrder tradeBuy2TP) ∧
    (ConnectMetaTrader gwOrderFail tradeBuy2TP true).1.orderErrorReported = some ("boom") ∧
    (ConnectMetaTrader gwOrderFail tradeBuy2TP true).1.connectionErrorReported = none :=
  claim_C1_amended gwOrderFail tradeBuy2TP tradeBuy2TP 10000 rrBuy2TP 0 ("boom")
    rfl rfl rfl rfl rfl rfl rfl (Nat.succ_pos _) rfl
    (fun i hi => absurd hi (Nat.not_lt_zero i))

/-! ## C5 -/

def anyText : String := "ignored"

/-- C5 counterexample: a `/yes` in the decision state on a stored
two-target trade does not invoke order submission exactly once per target —
with the first submission raising, the second target's order is never
attempted (zero submissions for it), because the loop aborts. -/
theorem claim_C5_counterexample :
    tradeBuy2TP.TP.length = 2 ∧
    (PlaceTrade (some tradeBuy2TP) anyText gwOrderFail).parseInvoked = false ∧
    (PlaceTrade (some tradeBuy2TP) anyText gwOrderFail).orch =
      some (ConnectMetaTrader gwOrderFail tradeBuy2TP true).1 ∧
    (ConnectMetaTrader gwOrderFail tradeBuy2TP true).1.ordersSubmitted.length = 1 :=
  ⟨rfl, rfl, rfl, rfl⟩

/-- C5 amended: in the decision state the affirmative command re-invokes the
orchestrator with `wantToPlaceOrder = true` on the already-stored trade
without re-parsing any text, then clears the pending trade and terminates
the conversation; order submission is attempted at most once per target per
confirmation, and exactly once per target when every submission succeeds (a
failing submission ends the loop before the remaining targets). -/
theorem claim_C5_amended (gw : Gateway) (t t2 : Trade) (text : String)
    (balance : ℚ) (rr : RiskReport)
    (hd : deployStep gw = .ok ()) (hc : gw.connectedResult = .ok ())
    (hr : gw.rpcConnectResult = .ok ()) (hs : gw.syncResult = .ok ())
    (hb : gw.accountInfoResult = .ok balance)
    (he : resolveEntry gw t = .ok t2)
    (hg : GetTradeInformationCalc t2 balance = .ok rr)
    (hok : ∀ i, i < t2.TP.length → gw.orderResults i = .ok ()) :
    (PlaceTrade (some t) text gw).parseInvoked = false ∧
    (PlaceTrade (some t) text gw).storedTrade = none ∧
    (PlaceTrade (some t) text gw).nextState = ConvState.ENDCONV ∧
    (PlaceTrade (some t) text gw).orch = some (ConnectMetaTrader gw t true).1 ∧
    (ConnectMetaTrader gw t true).1.ordersSubmitted = t2.TP.map (mkOrder t2) := by
  refine ⟨rfl, rfl, rfl, rfl, ?_⟩
  rw [CMT_stages_ok gw t t2 balance rr hd hc hr hs hb he hg]
  have hsub := submitLegs_ok gw (mkOrder t2) t2.TP 0
    (fun i hi => by simpa using hok i hi)
  simp only [enterTradeStep, hsub]
  split <;> rfl

/-- C5 witness: the amended statement on the all-succeeding gateway. -/
theorem claim_C5_witness :
    (PlaceTrade (some tradeBuy2TP) anyText gwOk).parseInvoked = false ∧
    (PlaceTrade (some tradeBuy2TP) anyText gwOk).storedTrade = none ∧
    (PlaceTrade (some tradeBuy2TP) anyText gwOk).nextState = ConvState.ENDCONV ∧
    (PlaceTrade (some tradeBuy2TP) anyText gwOk).orch =
      some (ConnectMetaTrader gwOk tradeBuy2TP true).1 ∧
    (ConnectMetaTrader gwOk tradeBuy2TP true).1.ordersSubmitted =
      tradeBuy2TP.TP.map (mkOrder tradeBuy2TP) :=
  claim_C5_amended gwOk tradeBuy2TP tradeBuy2TP anyText 10000 rrBuy2TP
    rfl rfl rfl rfl rfl rfl rfl (fun _ _ => rfl)

/-! ## C4 -/

/-- C4: if any stage before order placement fails — deploy (when invoked),
the broker connection, the RPC connection, synchronization, the balance
fetch, or the price fetch for a market entry — the run reports a connection
failure and no order submission call is made, for both values of
`wantToPlaceOrder`. -/
theorem claim_C4 (gw : Gateway) (t : Trade) (enter : Bool)
    (h : (∃ e, deployStep gw = .error e) ∨
         (∃ e, gw.connectedResult = .error e) ∨
         (∃ e, gw.rpcConnectResult = .error e) ∨
         (∃ e, gw.syncResult = .error e) ∨
         (∃ e, gw.accountInfoResult = .error e) ∨
         (t.Entry = EntryVal.str nowChars ∧ ∃ e, gw.priceResult = .error e)) :
    (ConnectMetaTrader gw t enter).1.ordersSubmitted = [] ∧
    (ConnectMetaTrader gw t enter).1.connectionErrorReported.isSome = true := by
  rcases hd : deployStep gw with e | u
  · simp [ConnectMetaTrader, hd, connFail]
  rcases hc : gw.connectedResult with e | u
  · simp [ConnectMetaTrader, hd, hc, connFail]
  rcases hr : gw.rpcConnectResult with e | u
  · simp [ConnectMetaTrader, hd, hc, hr, connFail]
  rcases hs : gw.syncResult with e | u
  · simp [ConnectMetaTrader, hd, hc, hr, hs, connFail]
  rcases hb : gw.accountInfoResult with e | balance
  · simp [ConnectMetaTrader, hd, hc, hr, hs, hb, connFail]
  rcases he : resolveEntry gw t with e | t2
  · simp [ConnectMetaTrader, hd, hc, hr, hs, hb, he, connFail]
  -- every pre-placement stage succeeded: the hypothesis must point at the
  -- price fetch, and a succeeding `resolveEntry` contradicts it
  exfalso
  rcases h with ⟨e, h1⟩ | ⟨e, h1⟩ | ⟨e, h1⟩ | ⟨e, h1⟩ | ⟨e, h1⟩ | ⟨hnow, e, h1⟩
  · rw [hd] at h1; cases h1
  · rw [hc] at h1; cases h1
  · rw [hr] at h1; cases h1
  · rw [hs] at h1; cases h1
  · rw [hb] at h1; cases h1
  · rw [resolveEntry, if_pos hnow, h1] at he; cases he

/-- C4 witness: a gateway whose synchronization stage raises. -/
theorem claim_C4_witness :
    (ConnectMetaTrader { gwOk with syncResult := .error ("sync lost") } tradeC8 true).1.ordersSubmitted = [] ∧
    (ConnectMetaTrader { gwOk with syncResult := .error ("sync lost") } tradeC8 true).1.connectionErrorReported.isSome = true :=
  claim_C4 { gwOk with syncResult := .error ("sync lost") } tradeC8 true
    (Or.inr (Or.inr (Or.inr (Or.inl ⟨("sync lost"), rfl⟩))))

/-! ## Parser inversion -/

theorem getLineE_ok {ls : List (List Char)} {i : ℕ} {l : List Char}
    (h : getLineE ls i = .ok l) : ls[i]? = some l := by
  unfold getLineE at h
  split at h
  · injection h with h'
    subst h'
    assumption
  · exact Except.noConfusion h

theorem getLineE_of_some {ls : List (List Char)} {i : ℕ} {l : List Char}
    (h : ls[i]? = some l) : getLineE ls i = .ok l := by
  unfold getLineE
  rw [h]

theorem lastWordE_ok {l w : List Char} (h : lastWordE l = .ok w) :
    (wordsL l).getLast? = some w := by
  unfold lastWordE at h
  split at h
  · injection h with h'
    subst h'
    assumption
  · exact Except.noConfusion h

theorem floatE_ok {w : List Char} {q : ℚ} (h : floatE w = .ok q) :
    parseFloatL w = some q := by
  unfold floatE at h
  split at h
  · injection h with h'
    subst h'
    assumption
  · exact Except.noConfusion h

theorem floatAt_ok {ls : List (List Char)} {i : ℕ} {q : ℚ}
    (h : floatAt ls i = .ok q) :
    ∃ l w, ls[i]? = some l ∧ (wordsL l).getLast? = some w ∧
      parseFloatL w = some q := by
  unfold floatAt at h
  split at h
  · exact Except.noConfusion h
  rename_i l hl
  split at h
  · exact Except.noConfusion h
  rename_i w hw
  exact ⟨l, w, getLineE_ok hl, lastWordE_ok hw, floatE_ok h⟩

theorem floatAt_lt_length {ls : List (List Char)} {i : ℕ} {q : ℚ}
    (h : floatAt ls i = .ok q) : i < ls.length := by
  obtain ⟨l, _, hl, -, -⟩ := floatAt_ok h
  obtain ⟨hlt, -⟩ := List.getElem?_eq_some.mp hl
  exact hlt

/-- A required numeric position whose last token exists but is not a
numeral forces `floatAt` to raise `ValueError`. -/
theorem floatAt_nonnum {ls : List (List Char)} {i : ℕ} {l w : List Char}
    (hl : ls[i]? = some l) (hw : (wordsL l).getLast? = some w)
    (hp : parseFloatL w = none) :
    floatAt ls i = .error PErr.malformedNumber := by
  have h1 : getLineE ls i = .ok l := getLineE_of_some hl
  have h2 : lastWordE l = .ok w := by unfold lastWordE; rw [hw]
  have h3 : floatE w = .error PErr.malformedNumber := by unfold floatE; rw [hp]
  simp [floatAt, h1, h2, h3]

/-- Inverting a successful `parseRest`: every field of the record comes
from the designated line, and every numeric token parsed. -/
theorem parseRest_ok_inv {ls : List (List Char)} {l0 : List Char}
    {side : OrderSide} {t : Trade} (h : parseRest ls l0 side = .ok t) :
    t.OrderType = side ∧
    (∃ w0, (wordsL l0).getLast? = some w0 ∧ t.Symbol = upperL w0) ∧
    (∃ l1 w1, ls[1]? = some l1 ∧ (wordsL l1).getLast? = some w1 ∧
      t.Entry = EntryVal.str w1) ∧
    floatAt ls 4 = .ok t.StopLoss ∧
    floatAt ls 2 = .ok t.PositionSize ∧
    floatAt ls 3 = .ok t.Multiplier ∧
    ∃ tp1 o2 o3, floatAt ls 5 = .ok tp1 ∧ tpExtra ls 6 = .ok o2 ∧
      tpExtra ls 7 = .ok o3 ∧ t.TP = tp1 :: (optList o2 ++ optList o3) := by
  unfold parseRest at h
  split at h
  · exact Except.noConfusion h
  rename_i w0 hw0
  split at h
  · exact Except.noConfusion h
  rename_i l1 hl1
  split at h
  · exact Except.noConfusion h
  rename_i w1 hw1
  split at h
  · exact Except.noConfusion h
  rename_i sl hsl
  split at h
  · exact Except.noConfusion h
  rename_i tp1 htp1
  split at h
  · exact Except.noConfusion h
  rename_i o2 ho2
  split at h
  · exact Except.noConfusion h
  rename_i o3 ho3
  split at h
  · exact Except.noConfusion h
  rename_i ps hps
  split at h
  · exact Except.noConfusion h
  rename_i mult hmult
  injection h with h'
  subst h'
  exact ⟨rfl, ⟨w0, lastWordE_ok hw0, rfl⟩,
    ⟨l1, w1, getLineE_ok hl1, lastWordE_ok hw1, rfl⟩,
    hsl, hps, hmult, tp1, o2, o3, htp1, ho2, ho3, rfl⟩

/-- Inverting a successful `ParseSignal`: line 0 exists and the branch taken
records which substring test succeeded, `"sell"` tested first. -/
theorem parse_ok_inv {s : String} {t : Trade} (h : ParseSignal s = .ok t) :
    ∃ l0, (linesOf s)[0]? = some l0 ∧
      ((hasSub sellChars (lowerL l0) = true ∧
          parseRest (linesOf s) l0 OrderSide.Sell = .ok t) ∨
        (hasSub sellChars (lowerL l0) = false ∧
          hasSub buyChars (lowerL l0) = true ∧
          parseRest (linesOf s) l0 OrderSide.Buy = .ok t)) := by
  unfold ParseSignal at h
  split at h
  · exact Except.noConfusion h
  rename_i l0 hl0
  by_cases hsell : hasSub sellChars (lowerL l0) = true
  · rw [if_pos hsell] at h
    exact ⟨l0, getLineE_ok hl0, Or.inl ⟨hsell, h⟩⟩
  · rw [if_neg hsell] at h
    by_cases hbuy : hasSub buyChars (lowerL l0) = true
    · rw [if_pos hbuy] at h
      exact ⟨l0, getLineE_ok hl0,
        Or.inr ⟨Bool.not_eq_true _ ▸ Bool.of_not_eq_true hsell, hbuy, h⟩⟩
    · rw [if_neg hbuy] at h
      exact Except.noConfusion h

/-! ## C6 -/

/-- Line `i` exists and its last whitespace-separated token is not a
decimal numeral. -/
def tokNonNumericAt (ls : List (List Char)) (i : ℕ) : Prop :=
  ∃ l w, ls[i]? = some l ∧ (wordsL l).getLast? = some w ∧ parseFloatL w = none

/-- The positions where `ParseSignal` requires a numeral: position size,
multiplier, stop loss and first take profit always; lines 6 and 7 when the
signal has them. -/
def requiredNumericIdx (ls : List (List Char)) (i : ℕ) : Prop :=
  i ∈ ([2, 3, 4, 5] : List ℕ) ∨ (i ∈ ([6, 7] : List ℕ) ∧ i < ls.length)

theorem tpExtra_nonnum_absurd {ls : List (List Char)} {i : ℕ} {o : Option ℚ}
    (hlt : i < ls.length) (herr : floatAt ls i = .error PErr.malformedNumber)
    (h : tpExtra ls i = .ok o) : False := by
  unfold tpExtra at h
  rw [if_pos hlt, herr] at h
  simp at h

/-- C6: a signal with fewer than six lines always fails to parse, and so
does one whose required numeric token is not a numeral; in both cases the
caller gets an error value and no partial record (the return type makes a
partial record impossible). -/
theorem claim_C6 :
    (∀ s : String, (linesOf s).length < 6 → ∃ e, ParseSignal s = .error e) ∧
    (∀ (s : String) (i : ℕ), requiredNumericIdx (linesOf s) i →
      tokNonNumericAt (linesOf s) i → ∃ e, ParseSignal s = .error e) := by
  constructor
  · intro s hlen
    cases hp : ParseSignal s with
    | error e => exact ⟨e, rfl⟩
    | ok t =>
      exfalso
      obtain ⟨l0, -, hbr⟩ := parse_ok_inv hp
      have hrest : ∃ side, parseRest (linesOf s) l0 side = .ok t := by
        rcases hbr with ⟨-, h⟩ | ⟨-, -, h⟩ <;> exact ⟨_, h⟩
      obtain ⟨side, hrest⟩ := hrest
      obtain ⟨-, -, -, -, -, -, tp1, o2, o3, htp1, -, -, -⟩ := parseRest_ok_inv hrest
      have := floatAt_lt_length htp1
      omega
  · intro s i hreq hnon
    cases hp : ParseSignal s with
    | error e => exact ⟨e, rfl⟩
    | ok t =>
      exfalso
      obtain ⟨l, w, hl, hw, hpf⟩ := hnon
      have herr := floatAt_nonnum hl hw hpf
      obtain ⟨l0, -, hbr⟩ := parse_ok_inv hp
      have hrest : ∃ side, parseRest (linesOf s) l0 side = .ok t := by
        rcases hbr with ⟨-, h⟩ | ⟨-, -, h⟩ <;> exact ⟨_, h⟩
      obtain ⟨side, hrest⟩ := hrest
      obtain ⟨-, -, -, hsl, hps, hm, tp1, o2, o3, htp1, ho2, ho3, -⟩ :=
        parseRest_ok_inv hrest
      rcases hreq with hmem | ⟨hmem, hlt⟩
      · simp only [List.mem_cons, List.not_mem_nil, or_false] at hmem
        rcases hmem with rfl | rfl | rfl | rfl
        · rw [herr] at hps; exact Except.noConfusion hps
        · rw [herr] at hm; exact Except.noConfusion hm
        · rw [herr] at hsl; exact Except.noConfusion hsl
        · rw [herr] at htp1; exact Except.noConfusion htp1
      · simp only [List.mem_cons, List.not_mem_nil, or_false] at hmem
        rcases hmem with rfl | rfl
        · exact tpExtra_nonnum_absurd hlt herr ho2
        · exact tpExtra_nonnum_absurd hlt herr ho3

def sigShortC6 : String := "BUY EURUSD\nEntry NOW\nLOTS 1\nMultiplier 1\nSL 1"

def sigBadNumC6 : String :=
  "BUY EURUSD\nEntry NOW\nLOTS 0.01\nMultiplier 0.01\nSL x.y\nTP 1.2"

/-- C6 witness: a five-line signal fails, and so does one whose stop-loss
token is `x.y`. -/
theorem claim_C6_witness :
    (∃ e, ParseSignal sigShortC6 = .error e) ∧
    (∃ e, ParseSignal sigBadNumC6 = .error e) :=
  ⟨claim_C6.1 sigShortC6 (by decide),
   claim_C6.2 sigBadNumC6 4 (Or.inl (by decide))
     ⟨['S', 'L', ' ', 'x', '.', 'y'], ['x', '.', 'y'], rfl, rfl, rfl⟩⟩

/-! ## C7 -/

/-- C7: on line 0 the case-insensitive `"sell"` substring test runs before
the `"buy"` one (a line containing both yields `Sell`); the upper-cased last
token of line 0 is the symbol; and a line 0 containing neither substring
fails the parse with `InvalidOrderType`. -/
theorem claim_C7 :
    (∀ (s : String) (l0 : List Char), (linesOf s)[0]? = some l0 →
      hasSub sellChars (lowerL l0) = false → hasSub buyChars (lowerL l0) = false →
      ParseSignal s = .error PErr.invalidOrderType) ∧
    (∀ (s : String) (t : Trade) (l0 : List Char), ParseSignal s = .ok t →
      (linesOf s)[0]? = some l0 → hasSub sellChars (lowerL l0) = true →
      t.OrderType = OrderSide.Sell) ∧
    (∀ (s : String) (t : Trade) (l0 w0 : List Char), ParseSignal s = .ok t →
      (linesOf s)[0]? = some l0 → (wordsL l0).getLast? = some w0 →
      t.Symbol = upperL w0) := by
  refine ⟨?_, ?_, ?_⟩
  · intro s l0 h0 hsell hbuy
    unfold ParseSignal
    rw [getLineE_of_some h0]
    simp [hsell, hbuy]
  · intro s t l0 hp h0 hsell
    obtain ⟨l0', h0', hbr⟩ := parse_ok_inv hp
    rw [h0] at h0'
    injection h0' with h0''
    subst h0''
    rcases hbr with ⟨-, hrest⟩ | ⟨hfalse, -, -⟩
    · exact (parseRest_ok_inv hrest).1
    · rw [hsell] at hfalse
      exact Bool.noConfusion hfalse
  · intro s t l0 w0 hp h0 hw0
    obtain ⟨l0', h0', hbr⟩ := parse_ok_inv hp
    rw [h0] at h0'
    injection h0' with h0''
    subst h0''
    have hrest : ∃ side, parseRest (linesOf s) l0 side = .ok t := by
      rcases hbr with ⟨-, h⟩ | ⟨-, -, h⟩ <;> exact ⟨_, h⟩
    obtain ⟨side, hrest⟩ := hrest
    obtain ⟨-, ⟨w0', hw0', hsym⟩, -⟩ := parseRest_ok_inv hrest
    rw [hw0] at hw0'
    injection hw0' with h
    subst h
    exact hsym

def sigNoSideC7 : String := "hello world\nEntry NOW\nLOTS 1\nMultiplier 1\nSL 1\nTP 2"

def sigBothSidesC7 : String := "buy sell EURUSD\nEntry NOW\nLOTS 1\nMultiplier 1\nSL 1\nTP 2"

def tradeBothSidesC7 : Trade :=
  { OrderType := .Sell, Symbol := eurusdChars, Entry := .str nowChars,
    StopLoss := 1, TP := [2], PositionSize := 1, Multiplier := 1 }

/-- C7 witness: a sideless line 0 gives `InvalidOrderType`; a line 0 with
both keywords parses as `Sell`; the symbol is the upper-cased last token. -/
theorem claim_C7_witness :
    ParseSignal sigNoSideC7 = .error PErr.invalidOrderType ∧
    ParseSignal sigBothSidesC7 = .ok tradeBothSidesC7 ∧
    tradeBothSidesC7.OrderType = OrderSide.Sell ∧
    tradeBothSidesC7.Symbol = upperL ['E', 'U', 'R', 'U', 'S', 'D'] :=
  ⟨claim_C7.1 sigNoSideC7
      ['h', 'e', 'l', 'l', 'o', ' ', 'w', 'o', 'r', 'l', 'd'] rfl rfl rfl,
   rfl,
   claim_C7.2.1 sigBothSidesC7 tradeBothSidesC7
      ['b', 'u', 'y', ' ', 's', 'e', 'l', 'l', ' ', 'E', 'U', 'R', 'U', 'S', 'D']
      rfl rfl rfl,
   claim_C7.2.2 sigBothSidesC7 tradeBothSidesC7
      ['b', 'u', 'y', ' ', 's', 'e', 'l', 'l', ' ', 'E', 'U', 'R', 'U', 'S', 'D']
      ['E', 'U', 'R', 'U', 'S', 'D'] rfl rfl rfl⟩

/-! ## Character and digit lemmas -/

theorem caseTable_snd_upper :
    ∀ p ∈ caseTable, ¬p.2.isWhitespace ∧ (∀ d, d < 10 → p.2 ≠ digCh d) ∧
      upChar p.2 = p.2 ∧ downChar p.2 = p.1 := by
  decide

theorem caseTable_fst_lower : ∀ p ∈ caseTable, downChar p.1 = p.1 := by
  decide

theorem upChar_cases (c : Char) : upChar c = c ∨ ∃ p ∈ caseTable, upChar c = p.2 := by
  unfold upChar
  cases h : caseTable.find? (fun p => p.1 == c) with
  | none => exact Or.inl rfl
  | some p => exact Or.inr ⟨p, List.mem_of_find?_eq_some h, rfl⟩

theorem upChar_not_ws {c : Char} (h : ¬c.isWhitespace) : ¬(upChar c).isWhitespace := by
  rcases upChar_cases c with he | ⟨p, hp, he⟩
  · rwa [he]
  · rw [he]
    exact (caseTable_snd_upper p hp).1

theorem upChar_idem (c : Char) : upChar (upChar c) = upChar c := by
  rcases upChar_cases c with he | ⟨p, hp, he⟩
  · rw [he, he]
  · rw [he]
    exact (caseTable_snd_upper p hp).2.2.1

theorem downChar_upChar (c : Char) : downChar (upChar c) = downChar c := by
  rcases hf : caseTable.find? (fun p => p.1 == c) with - | p
  · unfold upChar
    rw [hf]
  · have hp := List.mem_of_find?_eq_some hf
    have hc : p.1 = c := by simpa using List.find?_some hf
    unfold upChar
    rw [hf, (caseTable_snd_upper p hp).2.2.2, hc, ← hc,
      caseTable_fst_lower p hp, hc]

theorem upperL_idem (l : List Char) : upperL (upperL l) = upperL l := by
  unfold upperL
  rw [List.map_map]
  exact List.map_congr_left (fun c _ => upChar_idem c)

theorem lowerL_upperL (l : List Char) : lowerL (upperL l) = lowerL l := by
  unfold lowerL upperL
  rw [List.map_map]
  exact List.map_congr_left (fun c _ => downChar_upChar c)

theorem isDigit_not_ws {c : Char} (h : c.isDigit = true) : ¬c.isWhitespace := by
  intro hw
  simp only [Char.isWhitespace, Bool.or_eq_true, beq_iff_eq,
    decide_eq_true_eq] at hw
  rcases hw with ((rfl | rfl) | rfl) | rfl <;> simp [Char.isDigit] at h

theorem isDigit_ne {c : Char} (h : c.isDigit = true) :
    c ≠ '+' ∧ c ≠ '-' ∧ c ≠ '.' ∧ c ≠ '\n' := by
  refine ⟨?_, ?_, ?_, ?_⟩ <;> (rintro rfl; simp [Char.isDigit] at h)

theorem digCh_isDigit : ∀ d : ℕ, (digCh d).isDigit = true := by
  intro d
  unfold digCh
  split <;> decide

theorem digVal_digCh {d : ℕ} (h : d < 10) : digVal (digCh d) = d := by
  interval_cases d <;> decide

theorem digitsToNat_shift :
    ∀ (b : List Char) (acc : ℕ),
      List.foldl (fun a c => a * 10 + digVal c) acc b =
        acc * 10 ^ b.length + digitsToNat b := by
  intro b
  induction b with
  | nil => intro acc; simp [digitsToNat]
  | cons c b ih =>
    intro acc
    have h1 := ih (acc * 10 + digVal c)
    have h2 := ih (digVal c)
    simp only [List.foldl_cons] at *
    have h3 : digitsToNat (c :: b) = digVal c * 10 ^ b.length + digitsToNat b := by
      unfold digitsToNat
      simpa using h2
    rw [h1, h3, List.length_cons]
    ring

theorem digitsToNat_append (a b : List Char) :
    digitsToNat (a ++ b) = digitsToNat a * 10 ^ b.length + digitsToNat b := by
  unfold digitsToNat
  rw [List.foldl_append]
  exact digitsToNat_shift b _

theorem digitsToNat_replicate_zero (j : ℕ) (b : List Char) :
    digitsToNat (List.replicate j '0' ++ b) = digitsToNat b := by
  induction j with
  | zero => simp
  | succ j ih =>
    rw [List.replicate_succ, List.cons_append]
    unfold digitsToNat at *
    simpa using ih

theorem natDigitsAux_spec :
    ∀ (fuel n : ℕ), 0 < fuel → n < 10 ^ fuel →
      digitsToNat (natDigitsAux fuel n) = n ∧ natDigitsAux fuel n ≠ [] ∧
        ∀ c ∈ natDigitsAux fuel n, c.isDigit = true := by
  intro fuel
  induction fuel with
  | zero => intro n h; omega
  | succ f ih =>
    intro n _ hn
    unfold natDigitsAux
    by_cases hsm : n < 10
    · rw [if_pos hsm]
      refine ⟨?_, by simp, ?_⟩
      · simp [digitsToNat, digVal_digCh hsm]
      · intro c hc
        simp only [List.mem_singleton] at hc
        subst hc
        exact digCh_isDigit n
    · rw [if_neg hsm]
      have hf : 0 < f := by
        rcases Nat.eq_zero_or_pos f with rfl | h
        · simp at hn; omega
        · exact h
      have hdiv : n / 10 < 10 ^ f := by
        rw [Nat.div_lt_iff_lt_mul (by norm_num)]
        calc n < 10 ^ (f + 1) := hn
        _ = 10 ^ f * 10 := by ring
      obtain ⟨h1, h2, h3⟩ := ih (n / 10) hf hdiv
      refine ⟨?_, by simp, ?_⟩
      · rw [digitsToNat_append, h1]
        have : digitsToNat [digCh (n % 10)] = n % 10 := by
          simp [digitsToNat, digVal_digCh (Nat.mod_lt n (by norm_num))]
        rw [this]
        simp only [List.length_singleton, pow_one]
        omega
      · intro c hc
        rcases List.mem_append.mp hc with h | h
        · exact h3 c h
        · simp only [List.mem_singleton] at h
          subst h
          exact digCh_isDigit _
  
theorem lt_ten_pow_succ (n : ℕ) : n < 10 ^ (n + 1) :=
  lt_of_lt_of_le (Nat.lt_two_pow n)
    (le_trans (Nat.pow_le_pow_left (by norm_num) n)
      (Nat.pow_le_pow_right (by norm_num) (Nat.le_succ n)))

theorem natDigits_spec (n : ℕ) :
    digitsToNat (natDigits n) = n ∧ natDigits n ≠ [] ∧
      ∀ c ∈ natDigits n, c.isDigit = true :=
  natDigitsAux_spec (n + 1) n (Nat.succ_pos n) (lt_ten_pow_succ n)

theorem natDigitsAux_len :
    ∀ (fuel n k : ℕ), 1 ≤ k → n < 10 ^ k →
      (natDigitsAux fuel n).length ≤ k := by
  intro fuel
  induction fuel with
  | zero => intro n k hk _; simp [natDigitsAux]
  | succ f ih =>
    intro n k hk hn
    unfold natDigitsAux
    by_cases hsm : n < 10
    · rw [if_pos hsm]
      simpa using hk
    · rw [if_neg hsm]
      have hk2 : 2 ≤ k := by
        by_contra hlt
        have hk1 : k = 1 := by omega
        subst hk1
        simp at hn
        omega
      have hdiv : n / 10 < 10 ^ (k - 1) := by
        rw [Nat.div_lt_iff_lt_mul (by norm_num)]
        calc n < 10 ^ k := hn
        _ = 10 ^ (k - 1) * 10 := by
          rw [← pow_succ]
          congr 1
          omega
      have := ih (n / 10) (k - 1) (by omega) hdiv
      rw [List.length_append, List.length_singleton]
      omega

theorem natDigits_len {n k : ℕ} (hk : 1 ≤ k) (hn : n < 10 ^ k) :
    (natDigits n).length ≤ k :=
  natDigitsAux_len (n + 1) n k hk hn

theorem fracDigits_spec {k fp : ℕ} (hk : 1 ≤ k) (hfp : fp < 10 ^ k) :
    digitsToNat (fracDigits k fp) = fp ∧ (fracDigits k fp).length = k ∧
      ∀ c ∈ fracDigits k fp, c.isDigit = true := by
  obtain ⟨h1, -, h3⟩ := natDigits_spec fp
  have hlen := natDigits_len hk hfp
  refine ⟨?_, ?_, ?_⟩
  · rw [fracDigits, digitsToNat_replicate_zero, h1]
  · rw [fracDigits, List.length_append, List.length_replicate]
    omega
  · intro c hc
    rcases List.mem_append.mp hc with h | h
    · rw [List.eq_of_mem_replicate h]
      decide
    · exact h3 c h

/-! ## Denominators of parsed floats -/

theorem log2F_ge :
    ∀ (fuel n a : ℕ), n ≤ fuel → 2 ^ a ≤ n → a ≤ log2F fuel n := by
  intro fuel
  induction fuel with
  | zero =>
    intro n a hn ha
    have : 0 < 2 ^ a := Nat.pos_pow_of_pos a (by norm_num)
    omega
  | succ f ih =>
    intro n a hn ha
    unfold log2F
    by_cases h1 : n ≤ 1
    · rw [if_pos h1]
      cases a with
      | zero => exact Nat.le_refl 0
      | succ a' =>
        exfalso
        have h2 : 2 ^ 1 ≤ 2 ^ (a' + 1) := Nat.pow_le_pow_right (by norm_num) (by omega)
        simp at h2
        omega
    · rw [if_neg h1]
      cases a with
      | zero => exact Nat.zero_le _
      | succ a' =>
        have hdiv : 2 ^ a' ≤ n / 2 := by
          rw [Nat.le_div_iff_mul_le (by norm_num)]
          calc 2 ^ a' * 2 = 2 ^ (a' + 1) := (pow_succ 2 a').symm
          _ ≤ n := ha
        have hfuel : n / 2 ≤ f := by
          have := Nat.div_lt_self (by omega : 0 < n) (by norm_num : 1 < 2)
          omega
        exact Nat.succ_le_succ (ih (n / 2) a' hfuel hdiv)

/-- Every divisor of a power of ten divides `10 ^ tenExp den`. -/
theorem tenExp_dvd {den : ℕ} (h : ∃ j, den ∣ 10 ^ j) :
    den ∣ 10 ^ tenExp den := by
  obtain ⟨j, hj⟩ := h
  have h10 : (10 : ℕ) ^ j = 2 ^ j * 5 ^ j := by
    rw [← Nat.mul_pow]
  rw [h10] at hj
  obtain ⟨x, y, hx, hy, hxy⟩ := exists_dvd_and_dvd_of_dvd_mul hj
  obtain ⟨a, -, rfl⟩ := (Nat.dvd_prime_pow Nat.prime_two).mp hx
  obtain ⟨b, -, rfl⟩ := (Nat.dvd_prime_pow Nat.prime_five).mp hy
  have ha : a ≤ log2F den den := by
    refine log2F_ge den den a (Nat.le_refl den) ?_
    calc 2 ^ a ≤ 2 ^ a * 5 ^ b :=
      Nat.le_mul_of_pos_right _ (Nat.pos_pow_of_pos b (by norm_num))
    _ = den := hxy.symm
  have hb : b ≤ log2F den den := by
    refine log2F_ge den den b (Nat.le_refl den) ?_
    calc 2 ^ b ≤ 5 ^ b := Nat.pow_le_pow_left (by norm_num) b
    _ ≤ 2 ^ a * 5 ^ b := Nat.le_mul_of_pos_left _ (Nat.pos_pow_of_pos a (by norm_num))
    _ = den := hxy.symm
  have h1 : 2 ^ a * 5 ^ b ∣ 10 ^ (log2F den den + 1) := by
    rw [show (10 : ℕ) ^ (log2F den den + 1) =
        2 ^ (log2F den den + 1) * 5 ^ (log2F den den + 1) by rw [← Nat.mul_pow]]
    exact Nat.mul_dvd_mul (Nat.pow_dvd_pow 2 (by omega)) (Nat.pow_dvd_pow 5 (by omega))
  rw [tenExp]
  rwa [← hxy] at h1

theorem ratOfParts_den (neg : Bool) (mant f pe ne : ℕ) :
    ((ratOfParts neg mant f pe ne).den : ℕ) ∣ 10 ^ (f + ne) := by
  have hrw : ratOfParts neg mant f pe ne =
      Rat.divInt ((if neg then (-1 : ℤ) else 1) * (mant : ℤ) * 10 ^ pe) ((10 : ℤ) ^ (f + ne)) := by
    rw [Rat.divInt_eq_div, ratOfParts]
    push_cast
    rcases neg with - | -
    · norm_num
    · norm_num
  rw [hrw]
  have := Rat.den_dvd ((if neg then (-1 : ℤ) else 1) * (mant : ℤ) * 10 ^ pe) ((10 : ℤ) ^ (f + ne))
  have h2 : ((10 : ℤ) ^ (f + ne)) = ((10 ^ (f + ne) : ℕ) : ℤ) := by push_cast; ring
  rw [h2] at this
  exact_mod_cast this

theorem parseExpPart_den {neg : Bool} {mant f : ℕ} {t : List Char} {q : ℚ}
    (h : parseExpPart neg mant f t = some q) : ∃ j, (q.den : ℕ) ∣ 10 ^ j := by
  simp only [parseExpPart] at h
  split at h
  · exact Option.noConfusion h
  split at h
  · split at h <;>
      (injection h with h'; subst h'; exact ⟨_, ratOfParts_den _ _ _ _ _⟩)
  · exact Option.noConfusion h

/-- Every value `float(...)` can produce has a denominator dividing a power
of ten. -/
theorem parseFloatL_den {l : List Char} {q : ℚ} (h : parseFloatL l = some q) :
    ∃ j, (q.den : ℕ) ∣ 10 ^ j := by
  simp only [parseFloatL] at h
  split at h
  · exact Option.noConfusion h
  split at h
  · injection h with h'; subst h'; exact ⟨_, ratOfParts_den _ _ _ _ _⟩
  · exact parseExpPart_den h
  · exact parseExpPart_den h
  · exact Option.noConfusion h

/-! ## Parsing a printed decimal -/

theorem splitSign_digit {c : Char} {t : List Char} (hc : c.isDigit = true) :
    splitSign (c :: t) = (false, c :: t) := by
  obtain ⟨h1, h2, -, -⟩ := isDigit_ne hc
  unfold splitSign
  split <;> simp_all

theorem takeWhile_digits_append {a b : List Char}
    (ha : ∀ c ∈ a, c.isDigit = true) :
    (a ++ b).takeWhile Char.isDigit = a ++ b.takeWhile Char.isDigit ∧
    (a ++ b).dropWhile Char.isDigit = b.dropWhile Char.isDigit :=
  ⟨List.takeWhile_append_of_pos ha, List.dropWhile_append_of_pos ha⟩

theorem takeWhile_digits_all {a : List Char} (ha : ∀ c ∈ a, c.isDigit = true) :
    a.takeWhile Char.isDigit = a ∧ a.dropWhile Char.isDigit = [] := by
  have h1 := @List.takeWhile_append_of_pos Char Char.isDigit a [] ha
  have h2 := @List.dropWhile_append_of_pos Char Char.isDigit a [] ha
  simp only [List.append_nil] at h1 h2
  exact ⟨by simpa using h1, by simpa using h2⟩

theorem parseFloat_print_aux (sign : Bool) (ip fp k : ℕ) (hk : 1 ≤ k)
    (hfp : fp < 10 ^ k) :
    parseFloatL ((cond sign ['-'] []) ++ natDigits ip ++ '.' :: fracDigits k fp) =
      some (ratOfParts sign (ip * 10 ^ k + fp) k 0 0) := by
  obtain ⟨hipv, hipne, hipd⟩ := natDigits_spec ip
  obtain ⟨hfpv, hfplen, hfpd⟩ := fracDigits_spec hk hfp
  have hsplit : splitSign ((cond sign ['-'] []) ++ natDigits ip ++ '.' :: fracDigits k fp) =
      (sign, natDigits ip ++ '.' :: fracDigits k fp) := by
    cases sign with
    | false =>
      obtain ⟨c, cs, hc⟩ := List.exists_cons_of_ne_nil hipne
      simp only [cond, List.nil_append, hc, List.cons_append]
      exact splitSign_digit (hipd c (by rw [hc]; exact List.mem_cons_self c cs))
    | true => rfl
  have htake := (takeWhile_digits_append (b := '.' :: fracDigits k fp) hipd).1
  have hdrop := (takeWhile_digits_append (b := '.' :: fracDigits k fp) hipd).2
  have htake2 := (takeWhile_digits_all hfpd).1
  have hdrop2 := (takeWhile_digits_all hfpd).2
  have hdot : ('.' :: fracDigits k fp).takeWhile Char.isDigit = [] := by
    simp [List.takeWhile_cons]
  have hdot2 : ('.' :: fracDigits k fp).dropWhile Char.isDigit =
      '.' :: fracDigits k fp := by
    simp [List.dropWhile_cons]
  have hne : (natDigits ip).isEmpty = false := by
    cases hip : natDigits ip with
    | nil => exact absurd hip hipne
    | cons c t => rfl
  simp only [parseFloatL, hsplit, htake, hdrop, hdot, hdot2, htake2, hdrop2,
    List.append_nil, hne, Bool.false_and, Bool.ite_eq_true_distrib]
  simp only [if_false, Bool.false_eq_true]
  rw [digitsToNat_append, hipv, hfpv, hfplen]

/-- Parsing back a printed rational whose denominator divides a power of ten
recovers the rational exactly. -/
theorem ratOfParts_simple (sign : Bool) (m k : ℕ) :
    ratOfParts sign m k 0 0 = (cond sign (-1 : ℚ) 1) * (m : ℚ) / 10 ^ k := by
  rcases sign <;> simp [ratOfParts]

theorem parseFloat_printDec (q : ℚ) (h : ∃ j, (q.den : ℕ) ∣ 10 ^ j) :
    parseFloatL (printDecL q) = some q := by
  have hden := tenExp_dvd h
  have hk1 : 1 ≤ tenExp q.den := by rw [tenExp]; omega
  have hdvd : ((q.den : ℕ) : ℤ) ∣ q.num * 10 ^ tenExp q.den := by
    refine Dvd.dvd.mul_left ?_ q.num
    have := Int.natCast_dvd_natCast.mpr hden
    push_cast at this
    exact this
  have hmul : q.num * 10 ^ tenExp q.den / (q.den : ℤ) * (q.den : ℤ) =
      q.num * 10 ^ tenExp q.den := Int.ediv_mul_cancel hdvd
  set k := tenExp q.den with hk
  set n : ℤ := q.num * 10 ^ k / (q.den : ℤ) with hn
  have hfplt : n.natAbs % 10 ^ k < 10 ^ k :=
    Nat.mod_lt _ (Nat.pos_pow_of_pos k (by norm_num))
  have hsum : n.natAbs / 10 ^ k * 10 ^ k + n.natAbs % 10 ^ k = n.natAbs := by
    have h1 := Nat.div_add_mod n.natAbs (10 ^ k)
    rw [Nat.mul_comm] at h1
    exact h1
  have hqden : ((q.den : ℕ) : ℚ) ≠ 0 := by
    exact_mod_cast q.den_nz
  have hpow : ((10 : ℚ)) ^ k ≠ 0 := pow_ne_zero k (by norm_num)
  have key : (n : ℚ) * (q.den : ℚ) = (q.num : ℚ) * 10 ^ k := by
    exact_mod_cast hmul
  have hval : (n : ℚ) / 10 ^ k = q := by
    rw [div_eq_iff hpow]
    apply mul_right_cancel₀ hqden
    have h2 : (q : ℚ) * (q.den : ℚ) = (q.num : ℚ) := by
      nth_rewrite 1 [← Rat.num_div_den q]
      exact div_mul_cancel₀ _ hqden
    calc (n : ℚ) * (q.den : ℚ) = (q.num : ℚ) * 10 ^ k := key
    _ = q * (q.den : ℚ) * 10 ^ k := by rw [h2]
    _ = q * 10 ^ k * (q.den : ℚ) := by ring
  have hprint : printDecL q =
      (if n < 0 then ['-'] else []) ++ natDigits (n.natAbs / 10 ^ k) ++
        '.' :: fracDigits k (n.natAbs % 10 ^ k) := rfl
  rw [hprint]
  by_cases hneg : n < 0
  · rw [if_pos hneg]
    have haux := parseFloat_print_aux true (n.natAbs / 10 ^ k)
      (n.natAbs % 10 ^ k) k hk1 hfplt
    rw [show (cond true ['-'] ([] : List Char)) = ['-'] from rfl] at haux
    rw [haux, hsum]
    congr 1
    have h1 : ((n.natAbs : ℕ) : ℤ) = -n := by omega
    have habs : ((n.natAbs : ℕ) : ℚ) = -(n : ℚ) := by
      rw [← Int.cast_natCast (R := ℚ), h1, Int.cast_neg]
    rw [ratOfParts_simple, habs, ← hval]
    show (-1 : ℚ) * -(n : ℚ) / 10 ^ k = (n : ℚ) / 10 ^ k
    ring
  · rw [if_neg hneg]
    have haux := parseFloat_print_aux false (n.natAbs / 10 ^ k)
      (n.natAbs % 10 ^ k) k hk1 hfplt
    rw [show (cond false ['-'] ([] : List Char)) = [] from rfl] at haux
    rw [haux, hsum]
    congr 1
    have h1 : ((n.natAbs : ℕ) : ℤ) = n := by omega
    have habs : ((n.natAbs : ℕ) : ℚ) = (n : ℚ) := by
      rw [← Int.cast_natCast (R := ℚ), h1]
    rw [ratOfParts_simple, habs, ← hval]
    show (1 : ℚ) * (n : ℚ) / 10 ^ k = (n : ℚ) / 10 ^ k
    ring

/-! ## Lines, words and substrings of serialized text -/

theorem mem_of_getLast?_eq {α : Type} {l : List α} {a : α}
    (h : l.getLast? = some a) : a ∈ l := by
  cases l with
  | nil => simp at h
  | cons x t =>
    rw [List.getLast?_eq_getLast_of_ne_nil (List.cons_ne_nil x t)] at h
    injection h with h'
    subst h'
    exact List.getLast_mem _

theorem wordsAux_facts :
    ∀ (l acc w : List Char), w ∈ wordsAux l acc →
      (∀ c ∈ acc, ¬c.isWhitespace = true) →
      w ≠ [] ∧ ∀ c ∈ w, ¬c.isWhitespace = true := by
  intro l
  induction l with
  | nil =>
    intro acc w hw hacc
    unfold wordsAux at hw
    by_cases hne : acc.isEmpty
    · rw [if_pos hne] at hw
      simp at hw
    · rw [if_neg hne] at hw
      simp only [List.mem_singleton] at hw
      subst hw
      constructor
      · intro habs
        rw [List.reverse_eq_nil_iff] at habs
        subst habs
        simp at hne
      · intro c hc
        exact hacc c (List.mem_reverse.mp hc)
  | cons c t ih =>
    intro acc w hw hacc
    unfold wordsAux at hw
    by_cases hws : c.isWhitespace = true
    · rw [if_pos hws] at hw
      by_cases hne : acc.isEmpty
      · rw [if_pos hne] at hw
        exact ih [] w hw (by simp)
      · rw [if_neg hne] at hw
        rcases List.mem_cons.mp hw with rfl | hw2
        · constructor
          · intro habs
            rw [List.reverse_eq_nil_iff] at habs
            subst habs
            simp at hne
          · intro x hx
            exact hacc x (List.mem_reverse.mp hx)
        · exact ih [] w hw2 (by simp)
    · rw [if_neg hws] at hw
      refine ih (c :: acc) w hw ?_
      intro x hx
      rcases List.mem_cons.mp hx with rfl | hx2
      · exact hws
      · exact hacc x hx2

theorem wordsL_last_facts {l w : List Char} (h : (wordsL l).getLast? = some w) :
    w ≠ [] ∧ ∀ c ∈ w, ¬c.isWhitespace = true :=
  wordsAux_facts l [] w (mem_of_getLast?_eq h) (by simp)

theorem wordsAux_infix :
    ∀ (l acc w : List Char), w ∈ wordsAux l acc →
      ∃ u v, acc.reverse ++ l = u ++ w ++ v := by
  intro l
  induction l with
  | nil =>
    intro acc w hw
    unfold wordsAux at hw
    by_cases hne : acc.isEmpty
    · rw [if_pos hne] at hw; simp at hw
    · rw [if_neg hne] at hw
      simp only [List.mem_singleton] at hw
      subst hw
      exact ⟨[], [], by simp⟩
  | cons c t ih =>
    intro acc w hw
    unfold wordsAux at hw
    by_cases hws : c.isWhitespace = true
    · rw [if_pos hws] at hw
      have hsub : w ∈ wordsAux t [] → ∃ u v, acc.reverse ++ c :: t = u ++ w ++ v := by
        intro hw2
        obtain ⟨u, v, huv⟩ := ih [] w hw2
        simp only [List.reverse_nil, List.nil_append] at huv
        exact ⟨acc.reverse ++ c :: u, v, by simp [huv]⟩
      by_cases hne : acc.isEmpty
      · rw [if_pos hne] at hw
        exact hsub hw
      · rw [if_neg hne] at hw
        rcases List.mem_cons.mp hw with rfl | hw2
        · exact ⟨[], c :: t, by simp⟩
        · exact hsub hw2
    · rw [if_neg hws] at hw
      obtain ⟨u, v, huv⟩ := ih (c :: acc) w hw
      simp only [List.reverse_cons, List.append_assoc, List.singleton_append] at huv
      exact ⟨u, v, by rw [List.append_assoc]; exact huv⟩

theorem wordsL_infix {l w : List Char} (h : w ∈ wordsL l) :
    ∃ u v, l = u ++ w ++ v := by
  have := wordsAux_infix l [] w h
  simpa using this

theorem wordsAux_single :
    ∀ (e acc : List Char), e ≠ [] → (∀ c ∈ e, ¬c.isWhitespace = true) →
      wordsAux e acc = [acc.reverse ++ e] := by
  intro e
  induction e with
  | nil => intro acc h _; exact absurd rfl h
  | cons c t ih =>
    intro acc _ hnw
    have hc : ¬c.isWhitespace = true := hnw c (List.mem_cons_self c t)
    unfold wordsAux
    rw [if_neg hc]
    cases ht : t with
    | nil =>
      unfold wordsAux
      simp
    | cons x xs =>
      rw [← ht, ih (c :: acc) (by rw [ht]; exact List.cons_ne_nil x xs)
        (fun y hy => hnw y (List.mem_cons_of_mem c hy))]
      simp

theorem wordsAux_last_append :
    ∀ (pre e acc : List Char), e ≠ [] → (∀ c ∈ e, ¬c.isWhitespace = true) →
      (wordsAux (pre ++ ' ' :: e) acc).getLast? = some e := by
  intro pre
  induction pre with
  | nil =>
    intro e acc hne hnw
    simp only [List.nil_append]
    unfold wordsAux
    rw [if_pos (by decide : (' ').isWhitespace = true)]
    rw [wordsAux_single e [] hne hnw]
    by_cases hacc : acc.isEmpty
    · rw [if_pos hacc]
      simp
    · rw [if_neg hacc]
      simp
  | cons c pre ih =>
    intro e acc hne hnw
    have hrec := ih e [] hne hnw
    have hne2 : wordsAux (pre ++ ' ' :: e) [] ≠ [] := by
      intro h0
      rw [h0] at hrec
      simp at hrec
    simp only [List.cons_append]
    unfold wordsAux
    by_cases hws : c.isWhitespace = true
    · rw [if_pos hws]
      by_cases hacc : acc.isEmpty
      · rw [if_pos hacc]
        exact hrec
      · rw [if_neg hacc]
        cases hL : wordsAux (pre ++ ' ' :: e) [] with
        | nil => exact absurd hL hne2
        | cons x xs =>
          rw [List.getLast?_cons_cons, ← hL]
          exact hrec
    · rw [if_neg hws]
      exact ih e (c :: acc) hne hnw

theorem lastWordE_append {pre e : List Char} (hne : e ≠ [])
    (hnw : ∀ c ∈ e, ¬c.isWhitespace = true) :
    lastWordE (pre ++ ' ' :: e) = .ok e := by
  unfold lastWordE wordsL
  rw [wordsAux_last_append pre e [] hne hnw]

theorem rstripL_concat {l : List Char} {c : Char} (h : ¬c.isWhitespace = true) :
    rstripL (l ++ [c]) = l ++ [c] := by
  unfold rstripL
  rw [List.reverse_append]
  simp [List.dropWhile_cons, h]

theorem rstripL_space (l : List Char) : rstripL (l ++ [' ']) = rstripL l := by
  unfold rstripL
  rw [List.reverse_append]
  simp [List.dropWhile_cons]

theorem rstripL_word_line (pre body : List Char) (hne : body ≠ [])
    (hnw : ∀ c ∈ body, ¬c.isWhitespace = true) :
    rstripL (pre ++ body) = pre ++ body := by
  rcases List.eq_nil_or_concat body with rfl | ⟨b, c, rfl⟩
  · exact absurd rfl hne
  · rw [List.concat_eq_append, ← List.append_assoc]
    exact rstripL_concat (hnw c (by simp [List.concat_eq_append]))

theorem splitAux_append :
    ∀ (l0 rest acc : List Char), '\n' ∉ l0 →
      splitAux (l0 ++ '\n' :: rest) acc = (acc.reverse ++ l0) :: splitAux rest [] := by
  intro l0
  induction l0 with
  | nil =>
    intro rest acc _
    simp only [List.nil_append, List.append_nil]
    rfl
  | cons c t ih =>
    intro rest acc h
    have hc : ¬c = '\n' := fun h0 => h (h0 ▸ List.mem_cons_self c t)
    simp only [List.cons_append]
    conv_lhs => rw [splitAux]
    rw [if_neg hc, ih rest (c :: acc) (fun h0 => h (List.mem_cons_of_mem c h0))]
    simp

theorem splitAux_noNL :
    ∀ (l acc : List Char), '\n' ∉ l → acc.reverse ++ l ≠ [] →
      splitAux l acc = [acc.reverse ++ l] := by
  intro l
  induction l with
  | nil =>
    intro acc _ hne
    unfold splitAux
    simp only [List.append_nil] at hne
    have hacc : acc.isEmpty = false := by
      cases acc with
      | nil => simp at hne
      | cons _ _ => rfl
    rw [hacc]
    simp
  | cons c t ih =>
    intro acc h _
    have hc : ¬c = '\n' := fun h0 => h (h0 ▸ List.mem_cons_self c t)
    unfold splitAux
    rw [if_neg hc, ih (c :: acc) (fun h0 => h (List.mem_cons_of_mem c h0)) (by simp)]
    simp

theorem splitlines_joinLines :
    ∀ ls : List (List Char), (∀ l ∈ ls, '\n' ∉ l) → (∀ l ∈ ls, l ≠ []) →
      splitlinesL (joinLines ls) = ls := by
  intro ls
  induction ls with
  | nil => intro _ _; rfl
  | cons l rest ih =>
    intro h1 h2
    cases rest with
    | nil =>
      show splitlinesL (joinLines [l]) = [l]
      have : joinLines [l] = l := rfl
      rw [this]
      unfold splitlinesL
      have := splitAux_noNL l [] (h1 l (by simp)) (by simpa using h2 l (by simp))
      simpa using this
    | cons l2 rest2 =>
      rw [show joinLines (l :: l2 :: rest2) = l ++ '\n' :: joinLines (l2 :: rest2) from rfl]
      unfold splitlinesL
      rw [splitAux_append l _ [] (h1 l (by simp))]
      simp only [List.reverse_nil, List.nil_append]
      congr 1
      exact ih (fun x hx => h1 x (by simp [hx])) (fun x hx => h2 x (by simp [hx]))

theorem isPrefList_iff {p : List Char} :
    ∀ {l : List Char}, isPrefList p l = true ↔ ∃ v, l = p ++ v := by
  induction p with
  | nil =>
    intro l
    simp [isPrefList]
  | cons c p ih =>
    intro l
    cases l with
    | nil =>
      simp [isPrefList]
    | cons d t =>
      simp only [isPrefList, Bool.and_eq_true, beq_iff_eq]
      constructor
      · rintro ⟨rfl, h⟩
        obtain ⟨v, rfl⟩ := ih.mp h
        exact ⟨v, rfl⟩
      · rintro ⟨v, hv⟩
        simp only [List.cons_append, List.cons.injEq] at hv
        obtain ⟨rfl, rfl⟩ := hv
        exact ⟨rfl, ih.mpr ⟨v, rfl⟩⟩

theorem hasSub_iff {p l : List Char} :
    hasSub p l = true ↔ ∃ u v, l = u ++ p ++ v := by
  induction l with
  | nil =>
    simp only [hasSub, List.isEmpty_iff]
    constructor
    · rintro rfl
      exact ⟨[], [], rfl⟩
    · rintro ⟨u, v, huv⟩
      rcases List.append_eq_nil.mp (List.append_eq_nil.mp huv.symm).1 with ⟨-, h⟩
      exact h
  | cons c t ih =>
    simp only [hasSub, Bool.or_eq_true, isPrefList_iff, ih]
    constructor
    · rintro (⟨v, hv⟩ | ⟨u, v, hv⟩)
      · exact ⟨[], v, by simp [hv]⟩
      · exact ⟨c :: u, v, by simp [hv]⟩
    · rintro ⟨u, v, hv⟩
      cases u with
      | nil => exact Or.inl ⟨v, by simpa using hv⟩
      | cons x u' =>
        right
        simp only [List.cons_append, List.cons.injEq] at hv
        obtain ⟨rfl, ht⟩ := hv
        exact ⟨u', v, ht⟩

theorem hasSub_of_infix {p x u v : List Char} (h : hasSub p x = true) :
    hasSub p (u ++ x ++ v) = true := by
  obtain ⟨a, b, rfl⟩ := hasSub_iff.mp h
  exact hasSub_iff.mpr ⟨u ++ a, b ++ v, by simp⟩

theorem hasSub_sell_shift (x : List Char) :
    hasSub sellChars ('b' :: 'u' :: 'y' :: ' ' :: x) = hasSub sellChars x := by
  simp [hasSub, sellChars, isPrefList]

theorem hasSub_sell_head (r : List Char) :
    hasSub sellChars ('s' :: 'e' :: 'l' :: 'l' :: r) = true := by
  simp [hasSub, sellChars, isPrefList]

theorem hasSub_buy_head (r : List Char) :
    hasSub buyChars ('b' :: 'u' :: 'y' :: r) = true := by
  simp [hasSub, buyChars, isPrefList]

/-! ## Forward evaluation helpers -/

theorem lastWordE_of {l w : List Char} (hw : (wordsL l).getLast? = some w) :
    lastWordE l = .ok w := by
  unfold lastWordE
  rw [hw]

theorem floatE_of {w : List Char} {q : ℚ} (hp : parseFloatL w = some q) :
    floatE w = .ok q := by
  unfold floatE
  rw [hp]

theorem floatAt_of {ls : List (List Char)} {i : ℕ} {l w : List Char} {q : ℚ}
    (hl : ls[i]? = some l) (hw : lastWordE l = .ok w)
    (hq : floatE w = .ok q) : floatAt ls i = .ok q := by
  simp [floatAt, getLineE_of_some hl, hw, hq]

theorem tpExtra_of_lt {ls : List (List Char)} {i : ℕ} {q : ℚ}
    (hlt : i < ls.length) (hf : floatAt ls i = .ok q) :
    tpExtra ls i = .ok (some q) := by
  simp [tpExtra, hlt, hf]

theorem tpExtra_of_ge {ls : List (List Char)} {i : ℕ}
    (hge : ¬i < ls.length) : tpExtra ls i = .ok none := by
  simp [tpExtra, hge]

theorem tpExtra_some_inv {ls : List (List Char)} {i : ℕ} {v : ℚ}
    (h : tpExtra ls i = .ok (some v)) : floatAt ls i = .ok v := by
  unfold tpExtra at h
  split at h
  · split at h
    · exact Except.noConfusion h
    · rename_i q hq
      injection h with h'
      injection h' with h''
      rw [hq, h'']
  · injection h with h'
    exact Option.noConfusion h'

theorem parseRest_eval {ls : List (List Char)} {l0 : List Char}
    {side : OrderSide} {w0 l1 w1 : List Char} {sl tp1 ps mult : ℚ}
    {o2 o3 : Option ℚ}
    (hw0 : lastWordE l0 = .ok w0) (hl1 : getLineE ls 1 = .ok l1)
    (hw1 : lastWordE l1 = .ok w1) (h4 : floatAt ls 4 = .ok sl)
    (h5 : floatAt ls 5 = .ok tp1) (h6 : tpExtra ls 6 = .ok o2)
    (h7 : tpExtra ls 7 = .ok o3) (h2 : floatAt ls 2 = .ok ps)
    (h3 : floatAt ls 3 = .ok mult) :
    parseRest ls l0 side =
      .ok { OrderType := side, Symbol := upperL w0, Entry := .str w1,
            StopLoss := sl, TP := tp1 :: (optList o2 ++ optList o3),
            PositionSize := ps, Multiplier := mult } := by
  simp [parseRest, hw0, hl1, hw1, h4, h5, h6, h7, h2, h3]

theorem ParseSignal_eval_sell {s : String} {l0 : List Char}
    (h0 : (linesOf s)[0]? = some l0)
    (hsell : hasSub sellChars (lowerL l0) = true) :
    ParseSignal s = parseRest (linesOf s) l0 OrderSide.Sell := by
  simp [ParseSignal, getLineE_of_some h0, hsell]

theorem ParseSignal_eval_buy {s : String} {l0 : List Char}
    (h0 : (linesOf s)[0]? = some l0)
    (hsell : hasSub sellChars (lowerL l0) = false)
    (hbuy : hasSub buyChars (lowerL l0) = true) :
    ParseSignal s = parseRest (linesOf s) l0 OrderSide.Buy := by
  simp [ParseSignal, getLineE_of_some h0, hsell, hbuy]

/-! ## Characters of a printed decimal -/

theorem fracDigits_chars (k fp : ℕ) : ∀ c ∈ fracDigits k fp, c.isDigit = true := by
  intro c hc
  rcases List.mem_append.mp hc with h | h
  · rw [List.eq_of_mem_replicate h]
    decide
  · exact (natDigits_spec fp).2.2 c h

theorem printDecL_ne_nil (q : ℚ) : printDecL q ≠ [] := by
  simp only [printDecL]
  intro h
  rcases List.append_eq_nil.mp h with ⟨-, h2⟩
  exact List.cons_ne_nil _ _ h2

theorem printDecL_not_ws (q : ℚ) : ∀ c ∈ printDecL q, ¬c.isWhitespace = true := by
  intro c hc
  simp only [printDecL] at hc
  rcases List.mem_append.mp hc with h | h
  · rcases List.mem_append.mp h with h2 | h2
    · by_cases hneg : q.num * 10 ^ tenExp q.den / (q.den : ℤ) < 0
      · rw [if_pos hneg] at h2
        simp only [List.mem_singleton] at h2
        subst h2
        decide
      · rw [if_neg hneg] at h2
        simp at h2
    · exact isDigit_not_ws ((natDigits_spec _).2.2 c h2)
  · rcases List.mem_cons.mp h with rfl | h3
    · decide
    · exact isDigit_not_ws (fracDigits_chars _ _ c h3)

/-! ## The lines of a serialized trade -/

theorem no_nl_of_nonws {l : List Char} (h : ∀ c ∈ l, ¬c.isWhitespace = true) :
    '\n' ∉ l :=
  fun hmem => h '\n' hmem (by decide)

theorem sideChars_facts (side : OrderSide) :
    sideChars side ≠ [] ∧ ∀ c ∈ sideChars side, c ≠ '\n' := by
  cases side <;> exact ⟨by decide, by decide⟩

theorem ne_nl_append {a b : List Char} (ha : ∀ c ∈ a, c ≠ '\n')
    (hb : ∀ c ∈ b, c ≠ '\n') : ∀ c ∈ a ++ b, c ≠ '\n' := by
  intro c hc
  rcases List.mem_append.mp hc with h | h
  · exact ha c h
  · exact hb c h

theorem not_mem_of_ne_nl {l : List Char} (h : ∀ c ∈ l, c ≠ '\n') : '\n' ∉ l :=
  fun hmem => h '\n' hmem rfl

theorem ne_nl_of_nonws {l : List Char} (h : ∀ c ∈ l, ¬c.isWhitespace = true) :
    ∀ c ∈ l, c ≠ '\n' := by
  intro c hc heq
  subst heq
  exact h '\n' hc (by decide)

theorem linesOf_serializeTrade (t : Trade) (w1 : List Char)
    (hsymne : t.Symbol ≠ []) (hsymnw : ∀ c ∈ t.Symbol, ¬c.isWhitespace = true)
    (hent : t.Entry = .str w1) (hw1ne : w1 ≠ [])
    (hw1nw : ∀ c ∈ w1, ¬c.isWhitespace = true) :
    linesOf (serializeTrade t) =
      (sideChars t.OrderType ++ ' ' :: t.Symbol) ::
      (['E', 'n', 't', 'r', 'y'] ++ ' ' :: w1) ::
      (['L', 'O', 'T', 'S'] ++ ' ' :: printDecL t.PositionSize) ::
      (['M', 'u', 'l', 't', 'i', 'p', 'l', 'i', 'e', 'r'] ++ ' ' :: printDecL t.Multiplier) ::
      (['S', 'L'] ++ ' ' :: printDecL t.StopLoss) ::
      t.TP.map (fun tp => ['T', 'P'] ++ ' ' :: printDecL tp) := by
  have hnl : ∀ l ∈ tradeLines t, '\n' ∉ l := by
    intro l hl
    simp only [tradeLines, List.mem_append, List.mem_cons, List.not_mem_nil,
      or_false, List.mem_map] at hl
    apply not_mem_of_ne_nl
    rcases hl with (rfl | rfl | rfl | rfl | rfl) | ⟨tp, -, rfl⟩
    · refine ne_nl_append (sideChars_facts t.OrderType).2 ?_
      intro c hc
      rcases List.mem_cons.mp hc with rfl | hc2
      · decide
      · rcases List.mem_append.mp hc2 with h | h
        · exact ne_nl_of_nonws hsymnw c h
        · simp only [List.mem_singleton] at h
          subst h
          decide
    · refine ne_nl_append (by decide) ?_
      rw [hent]
      exact ne_nl_of_nonws hw1nw
    · exact ne_nl_append (by decide) (ne_nl_of_nonws (printDecL_not_ws _))
    · exact ne_nl_append (by decide) (ne_nl_of_nonws (printDecL_not_ws _))
    · exact ne_nl_append (by decide) (ne_nl_of_nonws (printDecL_not_ws _))
    · exact ne_nl_append (by decide) (ne_nl_of_nonws (printDecL_not_ws _))
  have hne : ∀ l ∈ tradeLines t, l ≠ [] := by
    intro l hl
    simp only [tradeLines, List.mem_append, List.mem_cons, List.not_mem_nil,
      or_false, List.mem_map] at hl
    rcases hl with (rfl | rfl | rfl | rfl | rfl) | ⟨tp, -, rfl⟩ <;>
      simp [List.append_ne_nil_of_left_ne_nil, (sideChars_facts t.OrderType).1]
  have hdata : (serializeTrade t).data = joinLines (tradeLines t) := rfl
  unfold linesOf
  rw [hdata, splitlines_joinLines (tradeLines t) hnl hne]
  unfold tradeLines
  rw [List.map_append]
  show _ ++ _ =
    [sideChars t.OrderType ++ ' ' :: t.Symbol,
     ['E', 'n', 't', 'r', 'y'] ++ ' ' :: w1,
     ['L', 'O', 'T', 'S'] ++ ' ' :: printDecL t.PositionSize,
     ['M', 'u', 'l', 't', 'i', 'p', 'l', 'i', 'e', 'r'] ++ ' ' :: printDecL t.Multiplier,
     ['S', 'L'] ++ ' ' :: printDecL t.StopLoss] ++
    t.TP.map (fun tp => ['T', 'P'] ++ ' ' :: printDecL tp)
  congr 1
  · simp only [List.map_cons, List.map_nil, List.cons.injEq, and_true]
    refine ⟨?_, ?_, ?_, ?_, ?_⟩
    · rw [show sideChars t.OrderType ++ ' ' :: (t.Symbol ++ [' ']) =
            ((sideChars t.OrderType ++ [' ']) ++ t.Symbol) ++ [' '] by simp]
      rw [rstripL_space,
        rstripL_word_line (sideChars t.OrderType ++ [' ']) t.Symbol hsymne hsymnw]
      simp
    · rw [hent]
      exact rstripL_word_line (['E', 'n', 't', 'r', 'y', ' ']) w1 hw1ne hw1nw
    · exact rstripL_word_line (['L', 'O', 'T', 'S', ' ']) _
        (printDecL_ne_nil _) (printDecL_not_ws _)
    · exact rstripL_word_line (['M', 'u', 'l', 't', 'i', 'p', 'l', 'i', 'e', 'r', ' ']) _
        (printDecL_ne_nil _) (printDecL_not_ws _)
    · exact rstripL_word_line (['S', 'L', ' ']) _
        (printDecL_ne_nil _) (printDecL_not_ws _)
  · rw [List.map_map]
    refine List.map_congr_left ?_
    intro tp _
    exact rstripL_word_line (['T', 'P', ' ']) _
      (printDecL_ne_nil _) (printDecL_not_ws _)

/-! ## C9 -/

attribute [ext] Trade

/-- C9: parsing a valid signal, re-serializing the record into the canonical
line-positional layout and parsing again reproduces the record
field-by-field. -/
theorem claim_C9 (s : String) (t : Trade) (h : ParseSignal s = .ok t) :
    ParseSignal (serializeTrade t) = .ok t := by
  obtain ⟨l0, h0, hbr⟩ := parse_ok_inv h
  have hrest2 : ∃ side, parseRest (linesOf s) l0 side = .ok t ∧
      (side = OrderSide.Buy → hasSub sellChars (lowerL l0) = false) := by
    rcases hbr with ⟨hs, hr⟩ | ⟨hs, -, hr⟩
    · exact ⟨OrderSide.Sell, hr, fun hb => OrderSide.noConfusion hb⟩
    · exact ⟨OrderSide.Buy, hr, fun _ => hs⟩
  obtain ⟨side, hrestOk, hnosell0⟩ := hrest2
  obtain ⟨hot, ⟨w0, hw0, hsym⟩, ⟨l1, w1, hl1, hw1, hent⟩, hsl, hps, hm,
    tp1, o2, o3, htp1, ho2, ho3, htp⟩ := parseRest_ok_inv hrestOk
  subst hot
  obtain ⟨hw0ne, hw0nw⟩ := wordsL_last_facts hw0
  obtain ⟨hw1ne, hw1nw⟩ := wordsL_last_facts hw1
  have hpf : ∀ {i : ℕ} {v : ℚ}, floatAt (linesOf s) i = .ok v →
      parseFloatL (printDecL v) = some v := by
    intro i v hfa
    obtain ⟨la, wa, ha1, ha2, hp⟩ := floatAt_ok hfa
    exact parseFloat_printDec v (parseFloatL_den hp)
  have hPsl := hpf hsl
  have hPps := hpf hps
  have hPm := hpf hm
  have hPtp1 := hpf htp1
  have hsymne : t.Symbol ≠ [] := by
    rw [hsym]
    intro habs
    exact hw0ne (List.map_eq_nil_iff.mp habs)
  have hsymnw : ∀ c ∈ t.Symbol, ¬c.isWhitespace = true := by
    rw [hsym]
    intro c hc
    obtain ⟨d, hd, rfl⟩ := List.mem_map.mp hc
    exact upChar_not_ws (hw0nw d hd)
  have hnosellw0 : t.OrderType = OrderSide.Buy →
      hasSub sellChars (lowerL w0) = false := by
    intro hb
    have h1 := hnosell0 hb
    cases hx : hasSub sellChars (lowerL w0) with
    | false => rfl
    | true =>
      exfalso
      obtain ⟨u, v, huv⟩ := wordsL_infix (mem_of_getLast?_eq hw0)
      have h2 : hasSub sellChars (lowerL l0) = true := by
        rw [huv]
        unfold lowerL
        rw [List.map_append, List.map_append]
        exact hasSub_of_infix hx
      rw [h2] at h1
      exact Bool.noConfusion h1
  have hlines := linesOf_serializeTrade t w1 hsymne hsymnw hent hw1ne hw1nw
  have hL0 : (linesOf (serializeTrade t))[0]? =
      some (sideChars t.OrderType ++ ' ' :: t.Symbol) := by
    rw [hlines]
    rfl
  have hlw0 : lastWordE (sideChars t.OrderType ++ ' ' :: t.Symbol) = .ok t.Symbol :=
    lastWordE_append hsymne hsymnw
  have hgl1 : getLineE (linesOf (serializeTrade t)) 1 =
      .ok (['E', 'n', 't', 'r', 'y'] ++ ' ' :: w1) :=
    getLineE_of_some (by rw [hlines]; rfl)
  have hlw1 : lastWordE (['E', 'n', 't', 'r', 'y'] ++ ' ' :: w1) = .ok w1 :=
    lastWordE_append hw1ne hw1nw
  have hL2 : (linesOf (serializeTrade t))[2]? =
      some (['L', 'O', 'T', 'S'] ++ ' ' :: printDecL t.PositionSize) := by
    rw [hlines]
    rfl
  have hL3 : (linesOf (serializeTrade t))[3]? =
      some (['M', 'u', 'l', 't', 'i', 'p', 'l', 'i', 'e', 'r'] ++
        ' ' :: printDecL t.Multiplier) := by
    rw [hlines]
    rfl
  have hL4 : (linesOf (serializeTrade t))[4]? =
      some (['S', 'L'] ++ ' ' :: printDecL t.StopLoss) := by
    rw [hlines]
    simp
  have hfa2 : floatAt (linesOf (serializeTrade t)) 2 = .ok t.PositionSize :=
    floatAt_of hL2
      (lastWordE_append (printDecL_ne_nil _) (printDecL_not_ws _)) (floatE_of hPps)
  have hfa3 : floatAt (linesOf (serializeTrade t)) 3 = .ok t.Multiplier :=
    floatAt_of hL3
      (lastWordE_append (printDecL_ne_nil _) (printDecL_not_ws _)) (floatE_of hPm)
  have hfa4 : floatAt (linesOf (serializeTrade t)) 4 = .ok t.StopLoss :=
    floatAt_of hL4
      (lastWordE_append (printDecL_ne_nil _) (printDecL_not_ws _)) (floatE_of hPsl)
  have hlow : lowerL (sideChars t.OrderType ++ ' ' :: t.Symbol) =
      lowerL (sideChars t.OrderType) ++ ' ' :: lowerL t.Symbol := by
    unfold lowerL
    rw [List.map_append]
    rfl
  have hlowsym : lowerL t.Symbol = lowerL w0 := by
    rw [hsym]
    exact lowerL_upperL w0
  have hdisp : ParseSignal (serializeTrade t) =
      parseRest (linesOf (serializeTrade t))
        (sideChars t.OrderType ++ ' ' :: t.Symbol) t.OrderType := by
    cases hOT : t.OrderType with
    | Sell =>
      rw [hOT] at hL0 hlow
      apply ParseSignal_eval_sell hL0
      rw [hlow]
      exact hasSub_sell_head _
    | Buy =>
      rw [hOT] at hL0 hlow
      apply ParseSignal_eval_buy hL0
      · rw [hlow]
        show hasSub sellChars
          ('b' :: 'u' :: 'y' :: ' ' :: lowerL t.Symbol) = false
        rw [hasSub_sell_shift, hlowsym]
        exact hnosellw0 hOT
      · rw [hlow]
        exact hasSub_buy_head _
  rw [hdisp]
  have hlwtp : ∀ v : ℚ, lastWordE (['T', 'P'] ++ ' ' :: printDecL v) =
      .ok (printDecL v) :=
    fun v => lastWordE_append (printDecL_ne_nil v) (printDecL_not_ws v)
  rcases o2 with - | x2 <;> rcases o3 with - | x3
  · -- one take-profit target
    simp only [optList, List.nil_append] at htp
    have hL5 : (linesOf (serializeTrade t))[5]? =
        some (['T', 'P'] ++ ' ' :: printDecL tp1) := by
      rw [hlines, htp]
      simp
    have hfa5 : floatAt (linesOf (serializeTrade t)) 5 = .ok tp1 :=
      floatAt_of hL5 (hlwtp tp1) (floatE_of hPtp1)
    have hlen : (linesOf (serializeTrade t)).length = 6 := by
      rw [hlines, htp]
      simp
    have h6 : tpExtra (linesOf (serializeTrade t)) 6 = .ok none :=
      tpExtra_of_ge (by rw [hlen]; omega)
    have h7 : tpExtra (linesOf (serializeTrade t)) 7 = .ok none :=
      tpExtra_of_ge (by rw [hlen]; omega)
    rw [parseRest_eval hlw0 hgl1 hlw1 hfa4 hfa5 h6 h7 hfa2 hfa3]
    congr 1
    ext : 1
    · rfl
    · show upperL t.Symbol = t.Symbol
      rw [hsym, upperL_idem]
    · show EntryVal.str w1 = t.Entry
      exact hent.symm
    · rfl
    · show tp1 :: (optList none ++ optList none) = t.TP
      rw [htp]
      rfl
    · rfl
    · rfl
  · -- (unreachable from a real parse, but harmless) targets one and three
    have hPx3 := hpf (tpExtra_some_inv ho3)
    simp only [optList, List.nil_append] at htp
    have hL5 : (linesOf (serializeTrade t))[5]? =
        some (['T', 'P'] ++ ' ' :: printDecL tp1) := by
      rw [hlines, htp]
      simp
    have hL6 : (linesOf (serializeTrade t))[6]? =
        some (['T', 'P'] ++ ' ' :: printDecL x3) := by
      rw [hlines, htp]
      simp
    have hfa5 : floatAt (linesOf (serializeTrade t)) 5 = .ok tp1 :=
      floatAt_of hL5 (hlwtp tp1) (floatE_of hPtp1)
    have hfa6 : floatAt (linesOf (serializeTrade t)) 6 = .ok x3 :=
      floatAt_of hL6 (hlwtp x3) (floatE_of hPx3)
    have hlen : (linesOf (serializeTrade t)).length = 7 := by
      rw [hlines, htp]
      simp
    have h6 : tpExtra (linesOf (serializeTrade t)) 6 = .ok (some x3) :=
      tpExtra_of_lt (by rw [hlen]; omega) hfa6
    have h7 : tpExtra (linesOf (serializeTrade t)) 7 = .ok none :=
      tpExtra_of_ge (by rw [hlen]; omega)
    rw [parseRest_eval hlw0 hgl1 hlw1 hfa4 hfa5 h6 h7 hfa2 hfa3]
    congr 1
    ext : 1
    · rfl
    · show upperL t.Symbol = t.Symbol
      rw [hsym, upperL_idem]
    · show EntryVal.str w1 = t.Entry
      exact hent.symm
    · rfl
    · show tp1 :: (optList (some x3) ++ optList none) = t.TP
      rw [htp]
      rfl
    · rfl
    · rfl
  · -- two take-profit targets
    have hPx2 := hpf (tpExtra_some_inv ho2)
    simp only [optList, List.append_nil] at htp
    have hL5 : (linesOf (serializeTrade t))[5]? =
        some (['T', 'P'] ++ ' ' :: printDecL tp1) := by
      rw [hlines, htp]
      simp
    have hL6 : (linesOf (serializeTrade t))[6]? =
        some (['T', 'P'] ++ ' ' :: printDecL x2) := by
      rw [hlines, htp]
      simp
    have hfa5 : floatAt (linesOf (serializeTrade t)) 5 = .ok tp1 :=
      floatAt_of hL5 (hlwtp tp1) (floatE_of hPtp1)
    have hfa6 : floatAt (linesOf (serializeTrade t)) 6 = .ok x2 :=
      floatAt_of hL6 (hlwtp x2) (floatE_of hPx2)
    have hlen : (linesOf (serializeTrade t)).length = 7 := by
      rw [hlines, htp]
      simp
    have h6 : tpExtra (linesOf (serializeTrade t)) 6 = .ok (some x2) :=
      tpExtra_of_lt (by rw [hlen]; omega) hfa6
    have h7 : tpExtra (linesOf (serializeTrade t)) 7 = .ok none :=
      tpExtra_of_ge (by rw [hlen]; omega)
    rw [parseRest_eval hlw0 hgl1 hlw1 hfa4 hfa5 h6 h7 hfa2 hfa3]
    congr 1
    ext : 1
    · rfl
    · show upperL t.Symbol = t.Symbol
      rw [hsym, upperL_idem]
    · show EntryVal.str w1 = t.Entry
      exact hent.symm
    · rfl
    · show tp1 :: (optList (some x2) ++ optList none) = t.TP
      rw [htp]
      rfl
    · rfl
    · rfl
  · -- three take-profit targets
    have hPx2 := hpf (tpExtra_some_inv ho2)
    have hPx3 := hpf (tpExtra_some_inv ho3)
    simp only [optList] at htp
    have hL5 : (linesOf (serializeTrade t))[5]? =
        some (['T', 'P'] ++ ' ' :: printDecL tp1) := by
      rw [hlines, htp]
      simp
    have hL6 : (linesOf (serializeTrade t))[6]? =
        some (['T', 'P'] ++ ' ' :: printDecL x2) := by
      rw [hlines, htp]
      simp
    have hL7 : (linesOf (serializeTrade t))[7]? =
        some (['T', 'P'] ++ ' ' :: printDecL x3) := by
      rw [hlines, htp]
      simp
    have hfa5 : floatAt (linesOf (serializeTrade t)) 5 = .ok tp1 :=
      floatAt_of hL5 (hlwtp tp1) (floatE_of hPtp1)
    have hfa6 : floatAt (linesOf (serializeTrade t)) 6 = .ok x2 :=
      floatAt_of hL6 (hlwtp x2) (floatE_of hPx2)
    have hfa7 : floatAt (linesOf (serializeTrade t)) 7 = .ok x3 :=
      floatAt_of hL7 (hlwtp x3) (floatE_of hPx3)
    have hlen : (linesOf (serializeTrade t)).length = 8 := by
      rw [hlines, htp]
      simp
    have h6 : tpExtra (linesOf (serializeTrade t)) 6 = .ok (some x2) :=
      tpExtra_of_lt (by rw [hlen]; omega) hfa6
    have h7 : tpExtra (linesOf (serializeTrade t)) 7 = .ok (some x3) :=
      tpExtra_of_lt (by rw [hlen]; omega) hfa7
    rw [parseRest_eval hlw0 hgl1 hlw1 hfa4 hfa5 h6 h7 hfa2 hfa3]
    congr 1
    ext : 1
    · rfl
    · show upperL t.Symbol = t.Symbol
      rw [hsym, upperL_idem]
    · show EntryVal.str w1 = t.Entry
      exact hent.symm
    · rfl
    · show tp1 :: (optList (some x2) ++ optList (some x3)) = t.TP
      rw [htp]
      rfl
    · rfl
    · rfl

/-- C9 witness: the example signal round-trips. -/
theorem claim_C9_witness : ParseSignal (serializeTrade tradeC8) = .ok tradeC8 :=
  claim_C9 sigC8 tradeC8 claim_C8.1
